import Mathlib

/-!
Shallow embedding of the `regex_executor` NFA engine (`src/automaton/nfa.rs`)
and verification of its specification.

Conventions used throughout:
* `i32` state identifiers become `Int`.  Indexing the `reserved_state`
  vector of length `NODE_LIMIT` panics outside `[0, NODE_LIMIT)` in Rust
  (`state as usize` wraps negatives); the embedding surfaces every panic
  as `none` (or `ReserveOut.oob`).
* `HashSet<i32>` becomes `Finset Int`; `HashMap` becomes a function
  `key → Option value`, with `updFun` modelling `insert` and `none`
  modelling a missing key (so `map[&k]` on a missing key is a panic).
* The unbounded `loop` in `set_chain`'s epsilon propagation is modelled
  with explicit fuel (`walkLoop`); a result of `none` at every fuel means
  the Rust loop never terminates.  `HashSet` iteration order is
  unspecified in Rust; the embedding fixes the order produced by
  an ascending sort (`sortedList`), reversed on append, matching `Vec::append`
  followed by `pop` from the back of the vector.
-/

namespace RegexExec

/-- `NODE_LIMIT` from `nfa.rs`: the capacity of the per-automaton state table. -/
def NODE_LIMIT : Nat := 1000

/-- `NFAError` from `nfa.rs`. -/
inductive NFAError where
  | NonReservedState
  | AlreadyReservedState
deriving DecidableEq

/-- The `NFA` struct from `nfa.rs`.  `move_table` and `epsilon_chain` are the
two `HashMap`s; `epsilon_chain` stores `(forward, back)` pairs. -/
structure NFA where
  start : Int
  finish : Int
  reserved_state : Int → Bool
  move_table : Int → Option (Char → Option (Finset Int))
  epsilon_chain : Int → Option (Finset Int × Finset Int)

/-- Pointwise map update, modelling `HashMap::insert` / `Vec` element write. -/
def updFun {α β : Type} [DecidableEq α] (m : α → β) (k : α) (v : β) : α → β :=
  fun x => if x = k then v else m x

/-- The empty transition row inserted by `reserve` (`HashMap::new()`). -/
def emptyRow : Char → Option (Finset Int) := fun _ => none

/-- `rangeClosedAux f n` is the list `[f, f+1, …, f+n-1]`. -/
def rangeClosedAux (f : Int) : Nat → List Int
  | 0 => []
  | n + 1 => f :: rangeClosedAux (f + 1) n

/-- The Rust iterator `state_f..=state_t` (empty when `state_f > state_t`). -/
def rangeClosed (f t : Int) : List Int := rangeClosedAux f (t + 1 - f).toNat

/-- `NFA::check_state`: bounds-checked read of the reservation table. -/
def NFA.check_state (nfa : NFA) (state : Int) : Bool :=
  if 0 ≤ state ∧ state < (NODE_LIMIT : Int) then nfa.reserved_state state else false

/-- Outcome of `NFA::reserve`.  On `Err`, Rust consumes (moves) the mutated
automaton and drops it; `err` carries that dropped, partially-mutated value so
that the no-rollback behaviour of the loop is observable in the model.
`oob` models the vector-index panic for a state outside `[0, NODE_LIMIT)`. -/
inductive ReserveOut where
  | ok (nfa : NFA)
  | err (nfa : NFA) (e : NFAError)
  | oob

/-- One iteration body of the `reserve` loop: mark the state reserved and
insert empty `move_table` / `epsilon_chain` entries. -/
def reserveOne (nfa : NFA) (s : Int) : NFA :=
  { nfa with
    reserved_state := updFun nfa.reserved_state s true
    move_table := updFun nfa.move_table s (some emptyRow)
    epsilon_chain := updFun nfa.epsilon_chain s (some (∅, ∅)) }

/-- The `for state in state_f..=state_t` loop of `NFA::reserve`. -/
def reserveLoop : NFA → List Int → ReserveOut
  | nfa, [] => .ok nfa
  | nfa, s :: rest =>
    if 0 ≤ s ∧ s < (NODE_LIMIT : Int) then
      if nfa.reserved_state s then .err nfa .AlreadyReservedState
      else reserveLoop (reserveOne nfa s) rest
    else .oob

/-- `NFA::reserve`. -/
def NFA.reserve (nfa : NFA) (state_f state_t : Int) : ReserveOut :=
  reserveLoop nfa (rangeClosed state_f state_t)

/-- `NFA::new`: fresh tables, then `reserve(...).ok().unwrap()` — both an
`Err` from `reserve` and an index panic abort the program (`none`). -/
def NFA.new (state_f state_t : Int) : Option NFA :=
  match NFA.reserve ⟨state_f, state_t, fun _ => false, fun _ => none, fun _ => none⟩
      state_f state_t with
  | .ok n => some n
  | _ => none

/-- The create-if-absent step of `set_chain` on a transition row
(`if !contains_key(&c) { insert(c, HashSet::new()) }`). -/
def rowOne (row : Char → Option (Finset Int)) (c : Char) : Char → Option (Finset Int) :=
  if (row c).isSome then row else updFun row c (some ∅)

/-- The ascending list of the members of a finite set of states, via insertion
sort (kernel-reducible, unlike `Finset.sort`, which it equals). -/
def sortedList (s : Finset Int) : List Int :=
  Quotient.liftOn s.1 (fun l => l.insertionSort (· ≤ ·)) (fun a b h =>
    List.eq_of_perm_of_sorted
      ((List.perm_insertionSort _ a).trans (h.trans (List.perm_insertionSort _ b).symm))
      (List.sorted_insertionSort _ a) (List.sorted_insertionSort _ b))

/-- The backward-propagation `loop` of `set_chain`, with explicit fuel.
Each iteration pops the top of the stack, reads its back-set, unions
`f_states` into its forward-set, and pushes the whole back-set.  `none` is
a missing-entry panic or fuel exhaustion; the Rust loop diverges exactly
when every fuel yields `none`. -/
def walkLoop (f_states : Finset Int) :
    Nat → (Int → Option (Finset Int × Finset Int)) → List Int →
    Option (Int → Option (Finset Int × Finset Int))
  | _, ch, [] => some ch
  | 0, _, _ :: _ => none
  | fuel + 1, ch, s :: rest =>
    match ch s with
    | none => none
    | some (fwd, bk) =>
      walkLoop f_states fuel (updFun ch s (some (fwd ∪ f_states, bk)))
        (((sortedList bk).reverse) ++ rest)

/-- `NFA::set_chain` with explicit fuel for the epsilon-propagation loop.
Returns the updated automaton together with the `Result<(), NFAError>`;
`none` is a panic or a diverging propagation loop. -/
def setChainFuel (fuel : Nat) (nfa : NFA) (state_a state_b : Int) (c : Char) :
    Option (NFA × Except NFAError Unit) :=
  if ¬ (nfa.check_state state_a = true ∧ nfa.check_state state_b = true) then
    some (nfa, Except.error NFAError.NonReservedState)
  else
    match nfa.move_table state_a with
    | none => none
    | some row =>
      match rowOne row c c with
      | none => none
      | some dests =>
        let mt2 := updFun nfa.move_table state_a
          (some (updFun (rowOne row c) c (some (insert state_b dests))))
        if c = '@' then
          match nfa.epsilon_chain state_a with
          | none => none
          | some pa =>
            let ch1 := updFun nfa.epsilon_chain state_a (some (insert state_b pa.1, pa.2))
            match ch1 state_b with
            | none => none
            | some pb =>
              let ch2 := updFun ch1 state_b (some (pb.1, insert state_a pb.2))
              match ch2 state_a, ch2 state_b with
              | some qa, some qb =>
                match walkLoop (qa.1 ∪ qb.1) fuel ch2 [state_a] with
                | none => none
                | some ch3 =>
                  some ({ nfa with move_table := mt2, epsilon_chain := ch3 }, Except.ok ())
              | _, _ => none
        else
          some ({ nfa with move_table := mt2 }, Except.ok ())

/-- `NFA::get_closure`: states reachable from `state` through one `c` move.
Panics (`none`) when `state` passes `check_state` but has no `move_table`
entry (`self.move_table[&state]` on a missing key). -/
def NFA.get_closure (nfa : NFA) (state : Int) (c : Char) : Option (Finset Int) :=
  if nfa.check_state state then
    match nfa.move_table state with
    | none => none
    | some row =>
      match row c with
      | some states => some states
      | none => some ∅
  else some ∅

/-- `NFA::get_epsilon_closure`: union of the stored forward sets of the
reserved members of `states`; unreserved members are skipped.  Panics
(`none`) when a reserved member has no `epsilon_chain` entry. -/
def NFA.get_epsilon_closure (nfa : NFA) (states : Finset Int) : Option (Finset Int) :=
  if ∀ s ∈ states, nfa.check_state s = true → (nfa.epsilon_chain s).isSome then
    some (states.biUnion fun s =>
      if nfa.check_state s then ((nfa.epsilon_chain s).getD (∅, ∅)).1 else ∅)
  else none

/-- The per-symbol stepping of `simulate`: union of `get_closure` over the
active set (`none` if any call panics). -/
def stepAll (nfa : NFA) (old : Finset Int) (c : Char) : Option (Finset Int) :=
  if ∀ s ∈ old, (nfa.get_closure s c).isSome then
    some (old.biUnion fun s => (nfa.get_closure s c).getD ∅)
  else none

/-- The per-symbol `loop` of `simulate`. -/
def simLoop (nfa : NFA) : List Char → Finset Int → Option Bool
  | [], old => some (nfa.finish ∈ old)
  | c :: rest, old =>
    match stepAll nfa old c, nfa.get_epsilon_closure old with
    | some stepped, some eps => simLoop nfa rest (stepped ∪ eps)
    | _, _ => none

/-- `NFA::simulate`.  Initialisation reads `epsilon_chain[&start]` with no
`check_state` guard, so an unreserved start state panics (`none`). -/
def NFA.simulate (nfa : NFA) (target : List Char) : Option Bool :=
  match nfa.epsilon_chain nfa.start with
  | none => none
  | some p => simLoop nfa target (insert nfa.start p.1)

/-- The `for state in 0..NODE_LIMIT` scan of `NFA::merge`, carrying the
current accumulator and the `reserve_s_f` run marker. -/
def mergeScan (nfa_b : NFA) : NFA → Int → List Int → Option (Except NFAError (NFA × Int))
  | acc, rsf, [] => some (.ok (acc, rsf))
  | acc, rsf, s :: rest =>
    if nfa_b.check_state s then
      if rsf < 0 then mergeScan nfa_b acc s rest
      else mergeScan nfa_b acc rsf rest
    else
      if rsf > 0 then
        match acc.reserve rsf (s - 1) with
        | .ok acc2 => mergeScan nfa_b acc2 (-1) rest
        | .err _ e => some (.error e)
        | .oob => none
      else mergeScan nfa_b acc rsf rest

/-- `NFA::merge` (the `merge_state` arguments are unused, as in the source). -/
def NFA.merge (nfa_a nfa_b : NFA) (merge_state_a merge_state_b : Int) :
    Option (Except NFAError NFA) :=
  match mergeScan nfa_b nfa_a (-1) (rangeClosed 0 ((NODE_LIMIT : Int) - 1)) with
  | some (.ok (acc, rsf)) =>
    if rsf > 0 then
      match acc.reserve rsf ((NODE_LIMIT : Int) - 1) with
      | .ok acc2 => some (.ok acc2)
      | .err _ e => some (.error e)
      | .oob => none
    else some (.ok acc)
  | some (.error e) => some (.error e)
  | none => none

/-- The stored forward epsilon set of a state (`epsilon_chain[s].0`). -/
def fwdSet (nfa : NFA) (s : Int) : Finset Int := ((nfa.epsilon_chain s).getD (∅, ∅)).1

/-- The stored backward epsilon set of a state (`epsilon_chain[s].1`). -/
def bwdSet (nfa : NFA) (s : Int) : Finset Int := ((nfa.epsilon_chain s).getD (∅, ∅)).2

/-- The destination set stored under `(a, c)` in the move table. -/
def mtDests (nfa : NFA) (a : Int) (c : Char) : Finset Int :=
  (((nfa.move_table a).getD emptyRow) c).getD ∅

/-- Total version of `get_closure` (used to describe non-panicking runs). -/
def stepSet (nfa : NFA) (s : Int) (c : Char) : Finset Int :=
  if nfa.check_state s then
    match nfa.move_table s with
    | some row => (row c).getD ∅
    | none => ∅
  else ∅

/-- Total version of `get_epsilon_closure`. -/
def epsClosureSet (nfa : NFA) (states : Finset Int) : Finset Int :=
  states.biUnion fun s => if nfa.check_state s then fwdSet nfa s else ∅

/-- One symbol of the simulation as the code performs it: step the active
set, then union in the epsilon closure of the *previous* active set. -/
def codeStep (nfa : NFA) (act : Finset Int) (c : Char) : Finset Int :=
  (act.biUnion fun s => stepSet nfa s c) ∪ epsClosureSet nfa act

/-- Modelled from the spec: the active set of §4.4 / claim C1, which extends
the stepped set with the epsilon closure *of the stepped set itself*
(`epsilon_closure_of(stepped_set)`), not of the previous active set. -/
def specActiveSet (nfa : NFA) (target : List Char) : Finset Int :=
  target.foldl
    (fun act c =>
      (act.biUnion fun s => stepSet nfa s c) ∪
        epsClosureSet nfa (act.biUnion fun s => stepSet nfa s c))
    (insert nfa.start (fwdSet nfa nfa.start))

/-- Well-formedness of the per-state tables: every reserved state has
`move_table` and `epsilon_chain` entries.  Stated over the bounded range so
that it is decidable; `check_state` is `false` outside the range anyway. -/
def NFA.WFb (nfa : NFA) : Prop :=
  ∀ s ∈ Finset.Icc (0 : Int) ((NODE_LIMIT : Int) - 1),
    nfa.check_state s = true → (nfa.move_table s).isSome ∧ (nfa.epsilon_chain s).isSome

/-- Membership in a recorded epsilon-edge list. -/
def EdgeRel (es : List (Int × Int)) (x y : Int) : Prop := (x, y) ∈ es

/-- Automata reachable through the public construction interface, indexed by
the list of epsilon edges successfully inserted so far (in order). -/
inductive Built : NFA → List (Int × Int) → Prop where
  | new : ∀ f t n, NFA.new f t = some n → Built n []
  | reserveStep : ∀ n es f t n', Built n es → NFA.reserve n f t = .ok n' → Built n' es
  | chainEps : ∀ n es a b fuel n', Built n es →
      setChainFuel fuel n a b '@' = some (n', .ok ()) → Built n' (es ++ [(a, b)])
  | chainSym : ∀ n es a b c fuel n', Built n es → c ≠ '@' →
      setChainFuel fuel n a b c = some (n', .ok ()) → Built n' es

/-- One back-edge step of the propagation walk: `y` is in the stored
back-set of `x`. -/
def Rbk (ch : Int → Option (Finset Int × Finset Int)) (x y : Int) : Prop :=
  ∃ p, ch x = some p ∧ y ∈ p.2

/-- States the propagation walk visits, starting from `stack`. -/
def Visited (ch : Int → Option (Finset Int × Finset Int)) (stack : List Int) (s : Int) :
    Prop :=
  ∃ t ∈ stack, Relation.ReflTransGen (Rbk ch) t s

/-- The epsilon chain directly after the two edge-endpoint updates of
`set_chain(a, b, '@')`, before the propagation walk runs. -/
def chainAfterDirect (nfa : NFA) (a b : Int) : Int → Option (Finset Int × Finset Int) :=
  let ch1 := updFun nfa.epsilon_chain a (some (insert b (fwdSet nfa a), bwdSet nfa a))
  updFun ch1 b (some (((ch1 b).getD (∅, ∅)).1, insert a ((ch1 b).getD (∅, ∅)).2))

/-- The `f_states` set of `set_chain(a, b, '@')`: forward set of `a` union
forward set of `b`, both read after the two direct updates. -/
def epsFStates (nfa : NFA) (a b : Int) : Finset Int :=
  (((chainAfterDirect nfa a b) a).getD (∅, ∅)).1 ∪
    (((chainAfterDirect nfa a b) b).getD (∅, ∅)).1

/-- The invariant tying a built automaton to its inserted epsilon edges:
table domains match the reservation table, edges join reserved in-range
states, the stored back-sets are exactly the direct predecessors, and the
stored forward sets are exactly the non-empty-path transitive closure. -/
def ChainInv (nfa : NFA) (es : List (Int × Int)) : Prop :=
  (∀ s, nfa.reserved_state s = true ↔ (nfa.epsilon_chain s).isSome) ∧
  (∀ s, nfa.reserved_state s = true ↔ (nfa.move_table s).isSome) ∧
  (∀ s, nfa.reserved_state s = true → 0 ≤ s ∧ s < (NODE_LIMIT : Int)) ∧
  (∀ e ∈ es, nfa.reserved_state e.1 = true ∧ nfa.reserved_state e.2 = true) ∧
  (∀ p q, p ∈ bwdSet nfa q ↔ (p, q) ∈ es) ∧
  (∀ p q, q ∈ fwdSet nfa p ↔ Relation.TransGen (EdgeRel es) p q)

/-- A throwaway automaton used as the default of `Option.getD`. -/
def dNFA : NFA := ⟨0, 0, fun _ => false, fun _ => none, fun _ => none⟩

/-- Concrete automaton: states `0..2` reserved, `start = 0`, `finish = 2`. -/
def c1n0 : NFA := (NFA.new 0 2).getD dNFA

/-- `c1n0` after `set_chain(0, 1, 'a')`. -/
def c1n1 : NFA := ((setChainFuel 9 c1n0 0 1 'a').getD (dNFA, Except.ok ())).1

/-- `c1n1` after `set_chain(1, 2, '@')`. -/
def c1nfa : NFA := ((setChainFuel 9 c1n1 1 2 '@').getD (dNFA, Except.ok ())).1

/-- Concrete automaton: states `1..2` reserved. -/
def cyc0 : NFA := (NFA.new 1 2).getD dNFA

/-- `cyc0` after `set_chain(1, 2, '@')`; inserting `2 → 1` next closes a cycle. -/
def cyc1 : NFA := ((setChainFuel 9 cyc0 1 2 '@').getD (dNFA, Except.ok ())).1

/-- Concrete automaton: states `1..3` reserved. -/
def c2n0 : NFA := (NFA.new 1 3).getD dNFA

/-- `c2n0` after `set_chain(1, 2, '@')`. -/
def c2n1 : NFA := ((setChainFuel 9 c2n0 1 2 '@').getD (dNFA, Except.ok ())).1

/-- Concrete automaton: states `1..4` reserved. -/
def c4n0 : NFA := (NFA.new 1 4).getD dNFA

/-- `c4n0` after inserting epsilon edges `(1,2)` then `(3,4)`. -/
def c4a1 : NFA := ((setChainFuel 9 c4n0 1 2 '@').getD (dNFA, Except.ok ())).1

/-- Second insertion of the first order. -/
def c4a2 : NFA := ((setChainFuel 9 c4a1 3 4 '@').getD (dNFA, Except.ok ())).1

/-- `c4n0` after inserting epsilon edges `(3,4)` then `(1,2)`. -/
def c4b1 : NFA := ((setChainFuel 9 c4n0 3 4 '@').getD (dNFA, Except.ok ())).1

/-- Second insertion of the second order. -/
def c4b2 : NFA := ((setChainFuel 9 c4b1 1 2 '@').getD (dNFA, Except.ok ())).1

/-- A literal well-formed automaton reserving states `0` and `1`. -/
def wNFA : NFA :=
  ⟨0, 1, fun s => decide (s = 0 ∨ s = 1),
    fun s => if s = 0 ∨ s = 1 then some emptyRow else none,
    fun s => if s = 0 ∨ s = 1 then some ((∅ : Finset Int), (∅ : Finset Int)) else none⟩

/-- A literal automaton reserving only state `5`. -/
def wA : NFA :=
  ⟨5, 5, fun s => decide (s = 5),
    fun s => if s = 5 then some emptyRow else none,
    fun s => if s = 5 then some ((∅ : Finset Int), (∅ : Finset Int)) else none⟩

/-- A literal automaton reserving only state `1`. -/
def wB : NFA :=
  ⟨1, 1, fun s => decide (s = 1),
    fun s => if s = 1 then some emptyRow else none,
    fun s => if s = 1 then some ((∅ : Finset Int), (∅ : Finset Int)) else none⟩

/-- Two automata reserve disjoint sets of state identifiers. -/
def DisjointReserved (A B : NFA) : Prop :=
  ∀ s, A.reserved_state s = true → B.reserved_state s = false

/-- The epsilon-propagation loop of `set_chain(a, b, '@')` on `nfa` never
terminates: no amount of fuel makes it return. -/
def InsertionDiverges (nfa : NFA) (a b : Int) : Prop :=
  ∀ fuel, setChainFuel fuel nfa a b '@' = none

/-- A literal automaton reserving states `5` and `6`. -/
def c9A : NFA :=
  ⟨5, 6, fun s => decide (s = 5 ∨ s = 6),
    fun s => if s = 5 ∨ s = 6 then some emptyRow else none,
    fun s => if s = 5 ∨ s = 6 then some ((∅ : Finset Int), (∅ : Finset Int)) else none⟩

/-- A literal automaton reserving states `0`, `1`, `2` and `3` — in
particular state `0`, the state `merge` can never carry over. -/
def c9B : NFA :=
  ⟨0, 3, fun s => decide (0 ≤ s ∧ s < 4),
    fun s => if 0 ≤ s ∧ s < 4 then some emptyRow else none,
    fun s => if 0 ≤ s ∧ s < 4 then some ((∅ : Finset Int), (∅ : Finset Int)) else none⟩

/-! ### Basic lemmas: ranges and map updates -/

theorem updFun_same {α β : Type} [DecidableEq α] (m : α → β) (k : α) (v : β) :
    updFun m k v k = v := by
  simp [updFun]

theorem updFun_ne {α β : Type} [DecidableEq α] {x k : α} (m : α → β) (v : β)
    (h : x ≠ k) : updFun m k v x = m x := by
  simp [updFun, h]

theorem updFun_self {α β : Type} [DecidableEq α] {m : α → β} {k : α} {v : β}
    (h : m k = v) : updFun m k v = m := by
  funext x
  by_cases hx : x = k
  · subst hx; simp [updFun, h]
  · simp [updFun, hx]

theorem sortedList_coe (s : Finset Int) : (sortedList s : Multiset Int) = s.1 := by
  obtain ⟨m, hm⟩ := s
  induction m using Quot.inductionOn with
  | h l => exact Multiset.coe_eq_coe.mpr (List.perm_insertionSort _ l)

theorem sortedList_sorted (s : Finset Int) : (sortedList s).Sorted (· ≤ ·) := by
  obtain ⟨m, hm⟩ := s
  induction m using Quot.inductionOn with
  | h l => exact List.sorted_insertionSort _ l

theorem sortedList_eq (s : Finset Int) : sortedList s = s.sort (· ≤ ·) := by
  apply List.eq_of_perm_of_sorted ?_ (sortedList_sorted s) (Finset.sort_sorted _ s)
  apply Multiset.coe_eq_coe.mp
  rw [sortedList_coe]
  exact (Finset.sort_eq _ s).symm

theorem mem_sortedList {x : Int} {s : Finset Int} : x ∈ sortedList s ↔ x ∈ s := by
  rw [sortedList_eq]; exact Finset.mem_sort _

theorem sortedList_empty : sortedList ∅ = [] := by
  rw [sortedList_eq]; exact Finset.sort_empty _

theorem sortedList_singleton (a : Int) : sortedList {a} = [a] := by
  rw [sortedList_eq]; exact Finset.sort_singleton _ a

theorem length_sortedList (s : Finset Int) : (sortedList s).length = s.card := by
  rw [sortedList_eq]; exact Finset.length_sort _

theorem mem_rangeClosedAux {s f : Int} {n : Nat} :
    s ∈ rangeClosedAux f n ↔ f ≤ s ∧ s < f + n := by
  induction n generalizing f with
  | zero => simp [rangeClosedAux]
  | succ m ih =>
    simp only [rangeClosedAux, List.mem_cons, ih]
    constructor
    · rintro (rfl | ⟨h1, h2⟩) <;> constructor <;> omega
    · rintro ⟨h1, h2⟩
      by_cases hs : s = f
      · exact Or.inl hs
      · exact Or.inr ⟨by omega, by omega⟩

theorem mem_rangeClosed {s f t : Int} :
    s ∈ rangeClosed f t ↔ f ≤ s ∧ s ≤ t := by
  rw [rangeClosed, mem_rangeClosedAux]
  omega

/-! ### Characterisation of the `reserve` loop -/

theorem reserveLoop_ok_of_free :
    ∀ (n : Nat) (f : Int) (nfa : NFA),
    (∀ s, f ≤ s → s < f + n → (0 ≤ s ∧ s < (NODE_LIMIT : Int)) ∧ nfa.reserved_state s = false) →
    ∃ n', reserveLoop nfa (rangeClosedAux f n) = .ok n' ∧
      n'.start = nfa.start ∧ n'.finish = nfa.finish ∧
      (∀ s, n'.reserved_state s = true ↔ (nfa.reserved_state s = true ∨ (f ≤ s ∧ s < f + n))) ∧
      (∀ s, f ≤ s → s < f + n →
        n'.move_table s = some emptyRow ∧ n'.epsilon_chain s = some (∅, ∅)) ∧
      (∀ s, ¬ (f ≤ s ∧ s < f + n) →
        n'.move_table s = nfa.move_table s ∧ n'.epsilon_chain s = nfa.epsilon_chain s) := by
  intro n
  induction n with
  | zero =>
    intro f nfa _
    refine ⟨nfa, rfl, rfl, rfl, ?_, ?_, ?_⟩
    · intro s
      constructor
      · exact fun h => Or.inl h
      · rintro (h | h)
        · exact h
        · exact absurd h (by omega)
    · intro s h1 h2
      exact absurd h2 (by omega)
    · intro s _
      exact ⟨rfl, rfl⟩
  | succ m ih =>
    intro f nfa hfree
    have hf := hfree f (le_refl _) (by omega)
    obtain ⟨n', hres, hst, hfin, hresv, hin, hout⟩ :=
      ih (f + 1) (reserveOne nfa f) (by
        intro s h1 h2
        refine ⟨(hfree s (by omega) (by omega)).1, ?_⟩
        have hs : s ≠ f := by omega
        simp only [reserveOne, updFun_ne _ _ hs]
        exact (hfree s (by omega) (by omega)).2)
    refine ⟨n', ?_, ?_, ?_, ?_, ?_, ?_⟩
    · simp only [rangeClosedAux, reserveLoop, hf.1, if_true, hf.2, Bool.false_eq_true, if_false]
      exact hres
    · rw [hst]; rfl
    · rw [hfin]; rfl
    · intro s
      rw [hresv s]
      by_cases hs : s = f
      · subst hs
        constructor
        · intro _
          exact Or.inr (by constructor <;> omega)
        · intro _
          exact Or.inl (by simp [reserveOne, updFun_same])
      · simp only [reserveOne, updFun_ne _ _ hs]
        constructor
        · rintro (h | h)
          · exact Or.inl h
          · exact Or.inr (by omega)
        · rintro (h | h)
          · exact Or.inl h
          · exact Or.inr (by omega)
    · intro s h1 h2
      by_cases hs : s = f
      · subst hs
        have hq := hout s (by omega)
        rw [hq.1, hq.2]
        simp [reserveOne, updFun_same]
      · exact hin s (by omega) (by omega)
    · intro s hs
      have h1 := hout s (by omega)
      have hsf : s ≠ f := by omega
      rw [h1.1, h1.2]
      simp [reserveOne, updFun_ne _ _ hsf]

theorem reserveLoop_ok_inv :
    ∀ (n : Nat) (f : Int) (nfa n' : NFA),
    reserveLoop nfa (rangeClosedAux f n) = .ok n' →
    (∀ s, f ≤ s → s < f + n →
      (0 ≤ s ∧ s < (NODE_LIMIT : Int)) ∧ nfa.reserved_state s = false) ∧
    n'.start = nfa.start ∧ n'.finish = nfa.finish ∧
    (∀ s, n'.reserved_state s = true ↔ (nfa.reserved_state s = true ∨ (f ≤ s ∧ s < f + n))) ∧
    (∀ s, f ≤ s → s < f + n →
      n'.move_table s = some emptyRow ∧ n'.epsilon_chain s = some (∅, ∅)) ∧
    (∀ s, ¬ (f ≤ s ∧ s < f + n) →
      n'.move_table s = nfa.move_table s ∧ n'.epsilon_chain s = nfa.epsilon_chain s) := by
  intro n
  induction n with
  | zero =>
    intro f nfa n' h
    simp only [rangeClosedAux, reserveLoop] at h
    cases h
    refine ⟨?_, rfl, rfl, ?_, ?_, fun s _ => ⟨rfl, rfl⟩⟩
    · intro s h1 h2
      exact absurd h2 (by omega)
    · intro s
      constructor
      · exact fun h => Or.inl h
      · rintro (h | h)
        · exact h
        · exact absurd h (by omega)
    · intro s h1 h2
      exact absurd h2 (by omega)
  | succ m ih =>
    intro f nfa n' h
    simp only [rangeClosedAux, reserveLoop] at h
    split at h
    case isFalse => cases h
    case isTrue hbnd =>
      split at h
      case isTrue => cases h
      case isFalse hres =>
        obtain ⟨hfree, hst, hfin, hresv, hin, hout⟩ := ih (f + 1) (reserveOne nfa f) n' h
        have hresf : nfa.reserved_state f = false := by
          cases hv : nfa.reserved_state f
          · rfl
          · exact absurd hv hres
        refine ⟨?_, by rw [hst]; rfl, by rw [hfin]; rfl, ?_, ?_, ?_⟩
        · intro s h1 h2
          by_cases hs : s = f
          · subst hs
            exact ⟨hbnd, hresf⟩
          · have hq := hfree s (by omega) (by omega)
            refine ⟨hq.1, ?_⟩
            have h3 := hq.2
            simp only [reserveOne, updFun_ne _ _ hs] at h3
            exact h3
        · intro s
          rw [hresv s]
          by_cases hs : s = f
          · subst hs
            constructor
            · intro _
              exact Or.inr (by constructor <;> omega)
            · intro _
              exact Or.inl (by simp [reserveOne, updFun_same])
          · simp only [reserveOne, updFun_ne _ _ hs]
            constructor
            · rintro (hq | hq)
              · exact Or.inl hq
              · exact Or.inr (by omega)
            · rintro (hq | hq)
              · exact Or.inl hq
              · exact Or.inr (by omega)
        · intro s h1 h2
          by_cases hs : s = f
          · subst hs
            have hq := hout s (by omega)
            rw [hq.1, hq.2]
            simp [reserveOne, updFun_same]
          · exact hin s (by omega) (by omega)
        · intro s hs
          have h1 := hout s (by omega)
          have hsf : s ≠ f := by omega
          rw [h1.1, h1.2]
          simp [reserveOne, updFun_ne _ _ hsf]

theorem reserveLoop_err_inv :
    ∀ (n : Nat) (f : Int) (nfa n' : NFA) (e : NFAError),
    reserveLoop nfa (rangeClosedAux f n) = .err n' e →
    e = .AlreadyReservedState ∧
    ∃ s0, f ≤ s0 ∧ s0 < f + n ∧ nfa.reserved_state s0 = true ∧
      (∀ s, f ≤ s → s < s0 →
        (0 ≤ s ∧ s < (NODE_LIMIT : Int)) ∧ nfa.reserved_state s = false) ∧
      (∀ s, n'.reserved_state s = true ↔ (nfa.reserved_state s = true ∨ (f ≤ s ∧ s < s0))) := by
  intro n
  induction n with
  | zero =>
    intro f nfa n' e h
    simp only [rangeClosedAux, reserveLoop] at h
    cases h
  | succ m ih =>
    intro f nfa n' e h
    simp only [rangeClosedAux, reserveLoop] at h
    split at h
    case isFalse => cases h
    case isTrue hbnd =>
      split at h
      case isTrue hres =>
        cases h
        refine ⟨rfl, f, le_refl _, by omega, hres, ?_, ?_⟩
        · intro s h1 h2
          exact absurd h2 (by omega)
        · intro s
          constructor
          · exact fun hq => Or.inl hq
          · rintro (hq | hq)
            · exact hq
            · exact absurd hq (by omega)
      case isFalse hres =>
        have hresf : nfa.reserved_state f = false := by
          cases hv : nfa.reserved_state f
          · rfl
          · exact absurd hv hres
        obtain ⟨he, s0, h1, h2, h3, h4, h5⟩ := ih (f + 1) (reserveOne nfa f) n' e h
        have h3' : nfa.reserved_state s0 = true := by
          have hs : s0 ≠ f := by omega
          simpa only [reserveOne, updFun_ne _ _ hs] using h3
        refine ⟨he, s0, by omega, by omega, h3', ?_, ?_⟩
        · intro s hs1 hs2
          by_cases hs : s = f
          · subst hs
            exact ⟨hbnd, hresf⟩
          · have hq := h4 s (by omega) (by omega)
            refine ⟨hq.1, ?_⟩
            simpa only [reserveOne, updFun_ne _ _ hs] using hq.2
        · intro s
          rw [h5 s]
          by_cases hs : s = f
          · subst hs
            constructor
            · intro _
              exact Or.inr (by constructor <;> omega)
            · intro _
              exact Or.inl (by simp [reserveOne, updFun_same])
          · simp only [reserveOne, updFun_ne _ _ hs]
            constructor
            · rintro (hq | hq)
              · exact Or.inl hq
              · exact Or.inr (by omega)
            · rintro (hq | hq)
              · exact Or.inl hq
              · exact Or.inr (by omega)

theorem reserveLoop_err_of_conflict :
    ∀ (n : Nat) (f : Int) (nfa : NFA),
    (∀ s, f ≤ s → s < f + n → 0 ≤ s ∧ s < (NODE_LIMIT : Int)) →
    (∃ s, f ≤ s ∧ s < f + n ∧ nfa.reserved_state s = true) →
    ∃ n', reserveLoop nfa (rangeClosedAux f n) = .err n' .AlreadyReservedState := by
  intro n
  induction n with
  | zero =>
    rintro f nfa _ ⟨s, h1, h2, _⟩
    exact absurd h2 (by omega)
  | succ m ih =>
    rintro f nfa hbnd ⟨s, h1, h2, h3⟩
    have hbf := hbnd f (le_refl _) (by omega)
    cases hres : nfa.reserved_state f with
    | true =>
      refine ⟨nfa, ?_⟩
      simp only [rangeClosedAux, reserveLoop]
      rw [if_pos hbf, if_pos hres]
    | false =>
      have hs : s ≠ f := fun hq => by rw [hq, hres] at h3; cases h3
      obtain ⟨n', hn'⟩ := ih (f + 1) (reserveOne nfa f)
        (fun u hu1 hu2 => hbnd u (by omega) (by omega))
        ⟨s, by omega, by omega, by simpa only [reserveOne, updFun_ne _ _ hs] using h3⟩
      refine ⟨n', ?_⟩
      simp only [rangeClosedAux, reserveLoop, hbf, if_true, hres, Bool.false_eq_true, if_false]
      exact hn'

/-! ### Relation helpers -/

theorem edgeRel_append {es : List (Int × Int)} {a b x y : Int} :
    EdgeRel (es ++ [(a, b)]) x y ↔ EdgeRel es x y ∨ (x = a ∧ y = b) := by
  simp [EdgeRel, Prod.ext_iff]

theorem transGen_last {R : Int → Int → Prop} {a b p q : Int}
    (h : Relation.TransGen (fun x y => R x y ∨ (x = a ∧ y = b)) p q) :
    Relation.TransGen R p q ∨ Relation.ReflTransGen R b q := by
  induction h with
  | single hstep =>
    rcases hstep with h | ⟨rfl, rfl⟩
    · exact Or.inl (Relation.TransGen.single h)
    · exact Or.inr Relation.ReflTransGen.refl
  | tail hpath hstep ih =>
    rcases hstep with h | ⟨rfl, rfl⟩
    · rcases ih with ih | ih
      · exact Or.inl (ih.tail h)
      · exact Or.inr (ih.tail h)
    · exact Or.inr Relation.ReflTransGen.refl

theorem transGen_first {R : Int → Int → Prop} {a b p q : Int}
    (h : Relation.TransGen (fun x y => R x y ∨ (x = a ∧ y = b)) p q) :
    Relation.TransGen R p q ∨ Relation.ReflTransGen R p a := by
  induction h using Relation.TransGen.head_induction_on with
  | base hstep =>
    rcases hstep with h | ⟨rfl, rfl⟩
    · exact Or.inl (Relation.TransGen.single h)
    · exact Or.inr Relation.ReflTransGen.refl
  | ih hstep _ ih =>
    rcases hstep with h | ⟨rfl, rfl⟩
    · rcases ih with ih | ih
      · exact Or.inl (ih.head h)
      · exact Or.inr (ih.head h)
    · exact Or.inr Relation.ReflTransGen.refl

theorem rtg_swap {R : Int → Int → Prop} {x y : Int}
    (h : Relation.ReflTransGen R x y) :
    Relation.ReflTransGen (fun u v => R v u) y x := by
  induction h with
  | refl => exact Relation.ReflTransGen.refl
  | tail _ hstep ih => exact Relation.ReflTransGen.head hstep ih

/-! ### Destructuring `set_chain` -/

theorem rowOne_apply (row : Char → Option (Finset Int)) (c : Char) :
    rowOne row c c = some ((row c).getD ∅) := by
  cases h : row c with
  | none => simp [rowOne, h, updFun_same]
  | some v => simp [rowOne, h]

theorem setChain_not_checked {nfa : NFA} {a b : Int} {c : Char} (fuel : Nat)
    (h : ¬ (nfa.check_state a = true ∧ nfa.check_state b = true)) :
    setChainFuel fuel nfa a b c = some (nfa, Except.error NFAError.NonReservedState) := by
  simp [setChainFuel, h]

theorem setChain_cases (fuel : Nat) (nfa : NFA) (a b : Int) (c : Char) :
    (¬ (nfa.check_state a = true ∧ nfa.check_state b = true) ∧
      setChainFuel fuel nfa a b c = some (nfa, Except.error NFAError.NonReservedState)) ∨
    ((nfa.check_state a = true ∧ nfa.check_state b = true) ∧
      (setChainFuel fuel nfa a b c = none ∨
       ∃ n', setChainFuel fuel nfa a b c = some (n', Except.ok ()))) := by
  by_cases hck : nfa.check_state a = true ∧ nfa.check_state b = true
  · right
    refine ⟨hck, ?_⟩
    rw [setChainFuel, if_neg (not_not_intro hck)]
    cases hmt : nfa.move_table a with
    | none => exact Or.inl rfl
    | some row =>
      simp only [rowOne_apply]
      by_cases hc : c = '@'
      · subst hc
        rw [if_pos rfl]
        cases hpa : nfa.epsilon_chain a with
        | none => exact Or.inl rfl
        | some pa =>
          cases hpb : updFun nfa.epsilon_chain a (some (insert b pa.1, pa.2)) b with
          | none => simp [hpb]
          | some pb =>
            simp only [hpb]
            cases hqa : updFun (updFun nfa.epsilon_chain a (some (insert b pa.1, pa.2))) b
                (some (pb.1, insert a pb.2)) a with
            | none => simp [hqa]
            | some qa =>
              simp only [hqa, updFun_same]
              cases hw : walkLoop (qa.1 ∪ (pb.1, insert a pb.2).1) fuel
                  (updFun (updFun nfa.epsilon_chain a (some (insert b pa.1, pa.2))) b
                    (some (pb.1, insert a pb.2))) [a] with
              | none => simp [hw]
              | some ch3 =>
                right
                exact ⟨_, rfl⟩
      · rw [if_neg hc]
        right
        exact ⟨_, rfl⟩
  · exact Or.inl ⟨hck, setChain_not_checked fuel hck⟩

theorem setChain_ok_checked {fuel : Nat} {nfa n' : NFA} {a b : Int} {c : Char}
    (h : setChainFuel fuel nfa a b c = some (n', Except.ok ())) :
    nfa.check_state a = true ∧ nfa.check_state b = true := by
  rcases setChain_cases fuel nfa a b c with ⟨hck, heq⟩ | ⟨hck, _⟩
  · rw [heq] at h
    cases h
  · exact hck

theorem setChain_error_inv {fuel : Nat} {nfa n' : NFA} {a b : Int} {c : Char} {e : NFAError}
    (h : setChainFuel fuel nfa a b c = some (n', Except.error e)) :
    n' = nfa ∧ e = NFAError.NonReservedState ∧
      ¬ (nfa.check_state a = true ∧ nfa.check_state b = true) := by
  rcases setChain_cases fuel nfa a b c with ⟨hck, heq⟩ | ⟨hck, hres⟩
  · rw [heq] at h
    simp only [Option.some_inj, Prod.mk.injEq] at h
    obtain ⟨h1, h2⟩ := h
    injection h2 with h3
    exact ⟨h1.symm, h3.symm, hck⟩
  · rcases hres with hres | ⟨n'', hres⟩
    · rw [hres] at h
      cases h
    · rw [hres] at h
      simp at h

theorem setChain_sym_eq {nfa : NFA} {a b : Int} {c : Char} {row : Char → Option (Finset Int)}
    (fuel : Nat)
    (hck : nfa.check_state a = true ∧ nfa.check_state b = true) (hc : c ≠ '@')
    (hrow : nfa.move_table a = some row) :
    setChainFuel fuel nfa a b c =
      some ({ nfa with
          move_table := updFun nfa.move_table a
            (some (updFun (rowOne row c) c (some (insert b ((row c).getD ∅))))) },
        Except.ok ()) := by
  rw [setChainFuel, if_neg (not_not_intro hck)]
  simp only [hrow, rowOne_apply]
  rw [if_neg hc]

theorem chainAfterDirect_eq {nfa : NFA} {a b : Int} {pa pb : Finset Int × Finset Int}
    (hpa : nfa.epsilon_chain a = some pa)
    (hpb : updFun nfa.epsilon_chain a (some (insert b pa.1, pa.2)) b = some pb) :
    chainAfterDirect nfa a b =
      updFun (updFun nfa.epsilon_chain a (some (insert b pa.1, pa.2))) b
        (some (pb.1, insert a pb.2)) := by
  have h1 : fwdSet nfa a = pa.1 := by simp [fwdSet, hpa]
  have h2 : bwdSet nfa a = pa.2 := by simp [bwdSet, hpa]
  unfold chainAfterDirect
  rw [h1, h2]
  simp only [hpb, Option.getD_some]

theorem setChain_eps_eq {nfa : NFA} {a b : Int} {row : Char → Option (Finset Int)}
    {pa pb : Finset Int × Finset Int} (fuel : Nat)
    (hck : nfa.check_state a = true ∧ nfa.check_state b = true)
    (hrow : nfa.move_table a = some row)
    (hpa : nfa.epsilon_chain a = some pa)
    (hpb : updFun nfa.epsilon_chain a (some (insert b pa.1, pa.2)) b = some pb) :
    setChainFuel fuel nfa a b '@' =
      Option.map (fun ch3 =>
        ({ nfa with
            move_table := updFun nfa.move_table a
              (some (updFun (rowOne row '@') '@' (some (insert b ((row '@').getD ∅))))),
            epsilon_chain := ch3 }, Except.ok ()))
        (walkLoop (epsFStates nfa a b) fuel (chainAfterDirect nfa a b) [a]) := by
  have hch2 := chainAfterDirect_eq hpa hpb
  have hq_b : chainAfterDirect nfa a b b = some (pb.1, insert a pb.2) := by
    rw [hch2]
    exact updFun_same _ _ _
  rw [setChainFuel, if_neg (not_not_intro hck)]
  simp only [hrow, rowOne_apply, if_pos rfl, hpa, hpb]
  by_cases hab : a = b
  · subst hab
    have hFS : epsFStates nfa a a = pb.1 ∪ pb.1 := by
      simp only [epsFStates, hq_b, Option.getD_some]
    simp only [updFun_same]
    rw [hch2, hFS]
    cases walkLoop (pb.1 ∪ pb.1) fuel
        (updFun (updFun nfa.epsilon_chain a (some (insert a pa.1, pa.2))) a
          (some (pb.1, insert a pb.2))) [a] with
    | none => rfl
    | some ch3 => rfl
  · have hq_a : chainAfterDirect nfa a b a = some (insert b pa.1, pa.2) := by
      rw [hch2, updFun_ne _ _ hab, updFun_same]
    have hFS : epsFStates nfa a b = insert b pa.1 ∪ pb.1 := by
      simp only [epsFStates, hq_a, hq_b, Option.getD_some]
    simp only [updFun_same, updFun_ne _ _ hab]
    rw [hch2, hFS]
    cases walkLoop (insert b pa.1 ∪ pb.1) fuel
        (updFun (updFun nfa.epsilon_chain a (some (insert b pa.1, pa.2))) b
          (some (pb.1, insert a pb.2))) [a] with
    | none => rfl
    | some ch3 => rfl

theorem setChain_eps_ok_inv {fuel : Nat} {nfa n' : NFA} {a b : Int}
    (h : setChainFuel fuel nfa a b '@' = some (n', Except.ok ())) :
    nfa.check_state a = true ∧ nfa.check_state b = true ∧
    ∃ row pa pb ch3,
      nfa.move_table a = some row ∧ nfa.epsilon_chain a = some pa ∧
      updFun nfa.epsilon_chain a (some (insert b pa.1, pa.2)) b = some pb ∧
      walkLoop (epsFStates nfa a b) fuel (chainAfterDirect nfa a b) [a] = some ch3 ∧
      n' = { nfa with
        move_table := updFun nfa.move_table a
          (some (updFun (rowOne row '@') '@' (some (insert b ((row '@').getD ∅))))),
        epsilon_chain := ch3 } := by
  have hck := setChain_ok_checked h
  refine ⟨hck.1, hck.2, ?_⟩
  cases hrow : nfa.move_table a with
  | none =>
    rw [setChainFuel, if_neg (not_not_intro hck)] at h
    simp only [hrow] at h
    cases h
  | some row =>
    cases hpa : nfa.epsilon_chain a with
    | none =>
      rw [setChainFuel, if_neg (not_not_intro hck)] at h
      simp only [hrow, rowOne_apply, if_pos rfl, if_true, hpa] at h
      cases h
    | some pa =>
      cases hpb : updFun nfa.epsilon_chain a (some (insert b pa.1, pa.2)) b with
      | none =>
        rw [setChainFuel, if_neg (not_not_intro hck)] at h
        simp only [hrow, rowOne_apply, if_pos rfl, if_true, hpa, hpb] at h
        cases h
      | some pb =>
        rw [setChain_eps_eq fuel hck hrow hpa hpb] at h
        cases hw : walkLoop (epsFStates nfa a b) fuel (chainAfterDirect nfa a b) [a] with
        | none =>
          rw [hw] at h
          cases h
        | some ch3 =>
          rw [hw] at h
          simp only [Option.map_some', Option.some_inj, Prod.mk.injEq] at h
          exact ⟨row, pa, pb, ch3, rfl, rfl, hpb, rfl, h.1.symm⟩

/-! ### The propagation walk -/

theorem rbk_upd {ch : Int → Option (Finset Int × Finset Int)} {s : Int}
    {f bk : Finset Int} (hs : ch s = some (f, bk)) (v : Finset Int) :
    ∀ x y, Rbk (updFun ch s (some (f ∪ v, bk))) x y ↔ Rbk ch x y := by
  intro x y
  constructor
  · rintro ⟨p, hp, hy⟩
    by_cases hx : x = s
    · subst hx
      rw [updFun_same] at hp
      cases hp
      exact ⟨(f, bk), hs, hy⟩
    · rw [updFun_ne _ _ hx] at hp
      exact ⟨p, hp, hy⟩
  · rintro ⟨p, hp, hy⟩
    by_cases hx : x = s
    · subst hx
      rw [hs] at hp
      cases hp
      exact ⟨(f ∪ v, bk), updFun_same _ _ _, hy⟩
    · refine ⟨p, ?_, hy⟩
      rw [updFun_ne _ _ hx]
      exact hp

theorem rtg_congr {r r' : Int → Int → Prop} (h : ∀ x y, r x y ↔ r' x y) {t s : Int} :
    Relation.ReflTransGen r t s ↔ Relation.ReflTransGen r' t s :=
  ⟨Relation.ReflTransGen.mono (fun a b hr => (h a b).1 hr),
   Relation.ReflTransGen.mono (fun a b hr => (h a b).2 hr)⟩

theorem visited_congr {ch ch' : Int → Option (Finset Int × Finset Int)}
    (h : ∀ x y, Rbk ch x y ↔ Rbk ch' x y) (stack : List Int) (s : Int) :
    Visited ch stack s ↔ Visited ch' stack s := by
  unfold Visited
  constructor
  · rintro ⟨t, ht, hr⟩
    exact ⟨t, ht, (rtg_congr h).1 hr⟩
  · rintro ⟨t, ht, hr⟩
    exact ⟨t, ht, (rtg_congr h).2 hr⟩

theorem visited_head (ch : Int → Option (Finset Int × Finset Int)) (s : Int)
    (rest : List Int) : Visited ch (s :: rest) s :=
  ⟨s, List.mem_cons_self s rest, Relation.ReflTransGen.refl⟩

theorem visited_step {ch : Int → Option (Finset Int × Finset Int)} {s : Int}
    {f bk : Finset Int} (hcs : ch s = some (f, bk)) (v : Finset Int) (rest : List Int)
    {x : Int} (hx : x ≠ s) :
    Visited ch (s :: rest) x ↔
      Visited (updFun ch s (some (f ∪ v, bk))) ((sortedList bk).reverse ++ rest) x := by
  rw [visited_congr (rbk_upd hcs v) ((sortedList bk).reverse ++ rest) x]
  constructor
  · rintro ⟨t, ht, hr⟩
    rcases List.mem_cons.mp ht with rfl | ht
    · rcases Relation.ReflTransGen.cases_head hr with rfl | ⟨y, hstep, hr'⟩
      · exact absurd rfl hx
      · obtain ⟨p, hp, hy⟩ := hstep
        rw [hcs] at hp
        cases hp
        refine ⟨y, List.mem_append.mpr (Or.inl ?_), hr'⟩
        rw [List.mem_reverse, mem_sortedList]
        exact hy
    · exact ⟨t, List.mem_append.mpr (Or.inr ht), hr⟩
  · rintro ⟨t, ht, hr⟩
    rcases List.mem_append.mp ht with ht | ht
    · rw [List.mem_reverse, mem_sortedList] at ht
      refine ⟨s, List.mem_cons_self s rest, Relation.ReflTransGen.head ⟨(f, bk), hcs, ht⟩ hr⟩
    · exact ⟨t, List.mem_cons_of_mem _ ht, hr⟩

theorem visited_nil (ch : Int → Option (Finset Int × Finset Int)) (x : Int) :
    ¬ Visited ch [] x := by
  rintro ⟨t, ht, -⟩
  cases ht

theorem walkLoop_spec (fs : Finset Int) :
    ∀ (fuel : Nat) (ch : Int → Option (Finset Int × Finset Int)) (stack : List Int)
      (ch' : Int → Option (Finset Int × Finset Int)),
    walkLoop fs fuel ch stack = some ch' →
    (∀ s, ch s = none → ch' s = none ∧ ¬ Visited ch stack s) ∧
    (∀ s f bk, ch s = some (f, bk) →
      (Visited ch stack s → ch' s = some (f ∪ fs, bk)) ∧
      (¬ Visited ch stack s → ch' s = some (f, bk))) := by
  intro fuel
  induction fuel with
  | zero =>
    intro ch stack ch' h
    cases stack with
    | nil =>
      cases h
      refine ⟨fun s hs => ⟨hs, visited_nil _ _⟩, fun s f bk hs => ⟨?_, fun _ => hs⟩⟩
      intro hv
      exact absurd hv (visited_nil _ _)
    | cons s rest => cases h
  | succ m ih =>
    intro ch stack ch' h
    cases stack with
    | nil =>
      cases h
      refine ⟨fun s hs => ⟨hs, visited_nil _ _⟩, fun s f bk hs => ⟨?_, fun _ => hs⟩⟩
      intro hv
      exact absurd hv (visited_nil _ _)
    | cons s rest =>
      rw [walkLoop] at h
      cases hcs : ch s with
      | none =>
        rw [hcs] at h
        cases h
      | some p =>
        obtain ⟨f, bk⟩ := p
        rw [hcs] at h
        obtain ⟨ih1, ih2⟩ := ih _ _ _ h
        constructor
        · intro x hx
          have hxs : x ≠ s := by
            intro hq
            rw [hq, hcs] at hx
            cases hx
          have hx2 : updFun ch s (some (f ∪ fs, bk)) x = none := by
            rw [updFun_ne _ _ hxs]
            exact hx
          obtain ⟨h1, h2⟩ := ih1 x hx2
          refine ⟨h1, ?_⟩
          intro hv
          exact h2 ((visited_step hcs fs rest hxs).mp hv)
        · intro x g bk' hx
          by_cases hxs : x = s
          · subst hxs
            rw [hcs] at hx
            cases hx
            have hx2 : updFun ch x (some (f ∪ fs, bk)) x = some (f ∪ fs, bk) :=
              updFun_same _ _ _
            obtain ⟨h1, h2⟩ := ih2 x (f ∪ fs) bk hx2
            have hres : ch' x = some (f ∪ fs, bk) := by
              by_cases hv : Visited (updFun ch x (some (f ∪ fs, bk)))
                  ((sortedList bk).reverse ++ rest) x
              · have hq := h1 hv
                rwa [Finset.union_assoc, Finset.union_self] at hq
              · exact h2 hv
            exact ⟨fun _ => hres, fun hv => absurd (visited_head ch x rest) hv⟩
          · have hx2 : updFun ch s (some (f ∪ fs, bk)) x = some (g, bk') := by
              rw [updFun_ne _ _ hxs]
              exact hx
            obtain ⟨h1, h2⟩ := ih2 x g bk' hx2
            constructor
            · intro hv
              exact h1 ((visited_step hcs fs rest hxs).mp hv)
            · intro hv
              refine h2 ?_
              intro hq
              exact hv ((visited_step hcs fs rest hxs).mpr hq)

theorem walkLoop_isSome_congr (fs fs' : Finset Int) :
    ∀ (fuel : Nat) (ch ch' : Int → Option (Finset Int × Finset Int)) (stack : List Int),
    (∀ x, (ch x).map Prod.snd = (ch' x).map Prod.snd) →
    (walkLoop fs fuel ch stack).isSome → (walkLoop fs' fuel ch' stack).isSome := by
  intro fuel
  induction fuel with
  | zero =>
    intro ch ch' stack _ h
    cases stack with
    | nil => rfl
    | cons s rest => cases h
  | succ m ih =>
    intro ch ch' stack hsnd h
    cases stack with
    | nil => rfl
    | cons s rest =>
      rw [walkLoop] at h ⊢
      cases hcs : ch s with
      | none =>
        rw [hcs] at h
        cases h
      | some p =>
        obtain ⟨f, bk⟩ := p
        have hsnd_s := hsnd s
        rw [hcs] at hsnd_s h
        cases hcs' : ch' s with
        | none =>
          rw [hcs'] at hsnd_s
          cases hsnd_s
        | some p' =>
          obtain ⟨f', bk'⟩ := p'
          rw [hcs'] at hsnd_s
          have hbk : bk = bk' := by
            simpa using hsnd_s
          subst hbk
          refine ih _ _ _ ?_ h
          intro x
          by_cases hx : x = s
          · subst hx
            rw [updFun_same, updFun_same]
            simp
          · rw [updFun_ne _ _ hx, updFun_ne _ _ hx]
            exact hsnd x

theorem walkLoop_none_of_selfloop (fs : Finset Int) {a : Int} :
    ∀ (fuel : Nat) (ch : Int → Option (Finset Int × Finset Int)) (stack : List Int),
    a ∈ stack → (∀ p, ch a = some p → a ∈ p.2) →
    walkLoop fs fuel ch stack = none := by
  intro fuel
  induction fuel with
  | zero =>
    intro ch stack ha _
    cases stack with
    | nil => cases ha
    | cons s rest => rfl
  | succ m ih =>
    intro ch stack ha hself
    cases stack with
    | nil => cases ha
    | cons s rest =>
      rw [walkLoop]
      cases hcs : ch s with
      | none => rfl
      | some p =>
        obtain ⟨f, bk⟩ := p
        refine ih _ _ ?_ ?_
        · rcases List.mem_cons.mp ha with rfl | ha
          · have := hself (f, bk) hcs
            refine List.mem_append.mpr (Or.inl ?_)
            rw [List.mem_reverse, mem_sortedList]
            exact this
          · exact List.mem_append.mpr (Or.inr ha)
        · intro p hp
          by_cases hx : a = s
          · subst hx
            rw [updFun_same] at hp
            cases hp
            exact hself (f, bk) hcs
          · rw [updFun_ne _ _ hx] at hp
            exact hself p hp

theorem walkLoop_cyc_none (fs : Finset Int) :
    ∀ (fuel : Nat) (ch : Int → Option (Finset Int × Finset Int)) (f1 f2 : Finset Int),
    ch 1 = some (f1, {2}) → ch 2 = some (f2, {1}) →
    walkLoop fs fuel ch [1] = none ∧ walkLoop fs fuel ch [2] = none := by
  intro fuel
  induction fuel with
  | zero =>
    intro ch f1 f2 _ _
    exact ⟨rfl, rfl⟩
  | succ m ih =>
    intro ch f1 f2 h1 h2
    have h21 : (2 : Int) ≠ 1 := by omega
    have h12 : (1 : Int) ≠ 2 := by omega
    constructor
    · rw [walkLoop]
      simp only [h1]
      have hs : (sortedList ({2} : Finset Int)).reverse ++ ([] : List Int) = [2] := by
        simp [sortedList_singleton]
      rw [hs]
      exact (ih _ (f1 ∪ fs) f2 (updFun_same _ _ _)
        (by rw [updFun_ne _ _ h21]; exact h2)).2
    · rw [walkLoop]
      simp only [h2]
      have hs : (sortedList ({1} : Finset Int)).reverse ++ ([] : List Int) = [1] := by
        simp [sortedList_singleton]
      rw [hs]
      exact (ih _ f1 (f2 ∪ fs) (by rw [updFun_ne _ _ h12]; exact h1)
        (updFun_same _ _ _)).1

theorem walkLoop_isSome_of_rank (fs : Finset Int) (rank : Int → Nat) :
    ∀ (N : Nat) (ch : Int → Option (Finset Int × Finset Int)) (stack : List Int),
    (∀ x y, Rbk ch x y → rank y < rank x) →
    (∀ x y, Rbk ch x y → (ch y).isSome) →
    (∀ x p, ch x = some p → p.2.card ≤ NODE_LIMIT) →
    (∀ t ∈ stack, (ch t).isSome) →
    (stack.map fun t => (NODE_LIMIT + 1) ^ rank t).sum < N →
    (walkLoop fs N ch stack).isSome := by
  intro N
  induction N with
  | zero =>
    intro ch stack _ _ _ _ hm
    exact absurd hm (by omega)
  | succ m ih =>
    intro ch stack hrank hdom hcard hstack hm
    cases stack with
    | nil => rfl
    | cons s rest =>
      obtain ⟨p, hcs⟩ := Option.isSome_iff_exists.mp (hstack s (List.mem_cons_self s rest))
      obtain ⟨f, bk⟩ := p
      rw [walkLoop]
      simp only [hcs]
      have hupd : ∀ y, (ch y).isSome → (updFun ch s (some (f ∪ fs, bk)) y).isSome := by
        intro y hy
        by_cases hys : y = s
        · subst hys
          rw [updFun_same]
          rfl
        · rw [updFun_ne _ _ hys]
          exact hy
      apply ih
      · intro x y hr
        exact hrank x y ((rbk_upd hcs fs x y).mp hr)
      · intro x y hr
        exact hupd y (hdom x y ((rbk_upd hcs fs x y).mp hr))
      · intro x p hp
        by_cases hxs : x = s
        · subst hxs
          rw [updFun_same] at hp
          cases hp
          exact hcard x (f, bk) hcs
        · rw [updFun_ne _ _ hxs] at hp
          exact hcard x p hp
      · intro t ht
        rcases List.mem_append.mp ht with ht | ht
        · rw [List.mem_reverse, mem_sortedList] at ht
          exact hupd t (hdom s t ⟨(f, bk), hcs, ht⟩)
        · exact hupd t (hstack t (List.mem_cons_of_mem _ ht))
      · -- the measure strictly decreases
        have hsplit :
            ((((sortedList bk).reverse) ++ rest).map
              fun t => (NODE_LIMIT + 1) ^ rank t).sum =
            (((sortedList bk).reverse).map
              (fun t => (NODE_LIMIT + 1) ^ rank t)).sum +
            ((rest.map fun t => (NODE_LIMIT + 1) ^ rank t).sum) := by
          rw [List.map_append, List.sum_append]
        have hmc : ((s :: rest).map fun t => (NODE_LIMIT + 1) ^ rank t).sum =
            (NODE_LIMIT + 1) ^ rank s +
            ((rest.map fun t => (NODE_LIMIT + 1) ^ rank t).sum) := by
          rw [List.map_cons, List.sum_cons]
        have hBpos : 0 < NODE_LIMIT + 1 := by omega
        have hlt : (((sortedList bk).reverse).map
            (fun t => (NODE_LIMIT + 1) ^ rank t)).sum < (NODE_LIMIT + 1) ^ rank s := by
          rcases Finset.eq_empty_or_nonempty bk with hbk | ⟨y0, hy0⟩
          · subst hbk
            simp only [sortedList_empty, List.reverse_nil, List.map_nil, List.sum_nil]
            exact pow_pos hBpos _
          · have hk1 : 1 ≤ rank s := by
              have := hrank s y0 ⟨(f, bk), hcs, hy0⟩
              omega
            have hub : ∀ x ∈ (((sortedList bk).reverse).map
                (fun t => (NODE_LIMIT + 1) ^ rank t)), x ≤ (NODE_LIMIT + 1) ^ (rank s - 1) := by
              intro x hx
              obtain ⟨y, hy, rfl⟩ := List.mem_map.mp hx
              rw [List.mem_reverse, mem_sortedList] at hy
              have hy' := hrank s y ⟨(f, bk), hcs, hy⟩
              exact Nat.pow_le_pow_right (by omega) (by omega)
            have hsum := List.sum_le_card_nsmul _ _ hub
            have hlen : (((sortedList bk).reverse).map
                (fun t => (NODE_LIMIT + 1) ^ rank t)).length = bk.card := by
              simp [length_sortedList]
            rw [hlen, smul_eq_mul] at hsum
            have hcardle := hcard s (f, bk) hcs
            have hpow : (NODE_LIMIT + 1) ^ rank s =
                (NODE_LIMIT + 1) ^ (rank s - 1) * (NODE_LIMIT + 1) := by
              rw [← pow_succ]
              congr 1
              omega
            calc (((sortedList bk).reverse).map
                (fun t => (NODE_LIMIT + 1) ^ rank t)).sum
                ≤ bk.card * (NODE_LIMIT + 1) ^ (rank s - 1) := hsum
              _ ≤ NODE_LIMIT * (NODE_LIMIT + 1) ^ (rank s - 1) :=
                  Nat.mul_le_mul_right _ hcardle
              _ < (NODE_LIMIT + 1) * (NODE_LIMIT + 1) ^ (rank s - 1) := by
                  have := pow_pos hBpos (rank s - 1)
                  exact Nat.mul_lt_mul_of_lt_of_le (by omega) (le_refl _) this
              _ = (NODE_LIMIT + 1) ^ rank s := by
                  rw [hpow, Nat.mul_comm]
        rw [hmc] at hm
        rw [hsplit]
        omega

/-! ### The closure invariant -/

theorem check_state_eq_true {nfa : NFA} {s : Int} :
    nfa.check_state s = true ↔
      (0 ≤ s ∧ s < (NODE_LIMIT : Int)) ∧ nfa.reserved_state s = true := by
  unfold NFA.check_state
  by_cases h : 0 ≤ s ∧ s < (NODE_LIMIT : Int)
  · simp [h]
  · simp [h]

theorem transGen_nil {p q : Int} (h : Relation.TransGen (EdgeRel []) p q) : False := by
  induction h with
  | single hs => cases hs
  | tail _ hs _ => cases hs

theorem transGen_append_iff {es : List (Int × Int)} {a b p q : Int} :
    Relation.TransGen (EdgeRel (es ++ [(a, b)])) p q ↔
      Relation.TransGen (fun x y => EdgeRel es x y ∨ (x = a ∧ y = b)) p q := by
  constructor
  · exact Relation.TransGen.mono (fun x y hxy => edgeRel_append.mp hxy)
  · exact Relation.TransGen.mono (fun x y hxy => edgeRel_append.mpr hxy)

theorem transGen_es_mono {es : List (Int × Int)} {a b p q : Int}
    (h : Relation.TransGen (EdgeRel es) p q) :
    Relation.TransGen (EdgeRel (es ++ [(a, b)])) p q :=
  Relation.TransGen.mono (fun x y hxy => edgeRel_append.mpr (Or.inl hxy)) h

theorem chainInv_new {f t : Int} {n : NFA} (h : NFA.new f t = some n) : ChainInv n [] := by
  rw [NFA.new] at h
  set init : NFA := ⟨f, t, fun _ => false, fun _ => none, fun _ => none⟩ with hinit
  cases hres : NFA.reserve init f t with
  | ok n0 =>
    rw [hres] at h
    cases h
    obtain ⟨hfree, _, _, hresv, hin, hout⟩ :=
      reserveLoop_ok_inv _ f init n hres
    have hmem : ∀ s : Int, f ≤ s ∧ s < f + ((t + 1 - f).toNat : Int) ↔ f ≤ s ∧ s ≤ t := by
      intro s
      omega
    have hresF : ∀ s : Int, init.reserved_state s = false := fun _ => rfl
    refine ⟨?_, ?_, ?_, ?_, ?_, ?_⟩
    · intro s
      rw [hresv s]
      by_cases hs : f ≤ s ∧ s < f + ((t + 1 - f).toNat : Int)
      · rw [(hin s hs.1 hs.2).2]
        exact iff_of_true (Or.inr hs) rfl
      · rw [(hout s hs).2]
        refine iff_of_false ?_ ?_
        · rintro (hx | hx)
          · rw [hresF s] at hx
            cases hx
          · exact hs hx
        · intro hx
          cases hx
    · intro s
      rw [hresv s]
      by_cases hs : f ≤ s ∧ s < f + ((t + 1 - f).toNat : Int)
      · rw [(hin s hs.1 hs.2).1]
        exact iff_of_true (Or.inr hs) rfl
      · rw [(hout s hs).1]
        refine iff_of_false ?_ ?_
        · rintro (hx | hx)
          · rw [hresF s] at hx
            cases hx
          · exact hs hx
        · intro hx
          cases hx
    · intro s hs
      rw [hresv s] at hs
      rcases hs with hs | hs
      · rw [hresF s] at hs
        cases hs
      · exact (hfree s hs.1 hs.2).1
    · intro e he
      cases he
    · intro p q
      refine iff_of_false ?_ ?_
      · intro hp
        rw [bwdSet] at hp
        by_cases hs : f ≤ q ∧ q < f + ((t + 1 - f).toNat : Int)
        · rw [(hin q hs.1 hs.2).2] at hp
          simp at hp
        · rw [(hout q hs).2] at hp
          simp at hp
      · intro hp
        cases hp
    · intro p q
      refine iff_of_false ?_ ?_
      · intro hp
        rw [fwdSet] at hp
        by_cases hs : f ≤ p ∧ p < f + ((t + 1 - f).toNat : Int)
        · rw [(hin p hs.1 hs.2).2] at hp
          simp at hp
        · rw [(hout p hs).2] at hp
          simp at hp
      · exact transGen_nil
  | err n0 e =>
    rw [hres] at h
    cases h
  | oob =>
    rw [hres] at h
    cases h

theorem chainInv_reserve {nfa n' : NFA} {es : List (Int × Int)} {f t : Int}
    (hinv : ChainInv nfa es) (h : NFA.reserve nfa f t = .ok n') : ChainInv n' es := by
  obtain ⟨hA, hA', hB, hD, hC, hE⟩ := hinv
  obtain ⟨hfree, _, _, hresv, hin, hout⟩ := reserveLoop_ok_inv _ f nfa n' h
  have hnew : ∀ s : Int, f ≤ s ∧ s < f + ((t + 1 - f).toNat : Int) →
      nfa.reserved_state s = false := by
    intro s hs
    exact (hfree s hs.1 hs.2).2
  refine ⟨?_, ?_, ?_, ?_, ?_, ?_⟩
  · intro s
    rw [hresv s]
    by_cases hs : f ≤ s ∧ s < f + ((t + 1 - f).toNat : Int)
    · rw [(hin s hs.1 hs.2).2]
      exact iff_of_true (Or.inr hs) rfl
    · rw [(hout s hs).2]
      constructor
      · rintro (hq | hq)
        · exact (hA s).mp hq
        · exact absurd hq hs
      · intro hq
        exact Or.inl ((hA s).mpr hq)
  · intro s
    rw [hresv s]
    by_cases hs : f ≤ s ∧ s < f + ((t + 1 - f).toNat : Int)
    · rw [(hin s hs.1 hs.2).1]
      exact iff_of_true (Or.inr hs) rfl
    · rw [(hout s hs).1]
      constructor
      · rintro (hq | hq)
        · exact (hA' s).mp hq
        · exact absurd hq hs
      · intro hq
        exact Or.inl ((hA' s).mpr hq)
  · intro s hs
    rw [hresv s] at hs
    rcases hs with hs | hs
    · exact hB s hs
    · exact (hfree s hs.1 hs.2).1
  · intro e he
    have hq := hD e he
    constructor
    · rw [hresv e.1]
      exact Or.inl hq.1
    · rw [hresv e.2]
      exact Or.inl hq.2
  · intro p q
    by_cases hs : f ≤ q ∧ q < f + ((t + 1 - f).toNat : Int)
    · rw [bwdSet, (hin q hs.1 hs.2).2]
      refine iff_of_false ?_ ?_
      · intro hp
        simp at hp
      · intro hp
        have hq := (hD _ hp).2
        rw [hnew q hs] at hq
        cases hq
    · rw [bwdSet, (hout q hs).2]
      exact hC p q
  · intro p q
    by_cases hs : f ≤ p ∧ p < f + ((t + 1 - f).toNat : Int)
    · rw [fwdSet, (hin p hs.1 hs.2).2]
      refine iff_of_false ?_ ?_
      · intro hp
        simp at hp
      · intro hp
        obtain ⟨y, hy, -⟩ := Relation.TransGen.head'_iff.mp hp
        have hq := (hD _ hy).1
        rw [hnew p hs] at hq
        cases hq
    · rw [fwdSet, (hout p hs).2]
      exact hE p q

theorem chainInv_chainSym {nfa n' : NFA} {es : List (Int × Int)} {a b : Int} {c : Char}
    {fuel : Nat} (hinv : ChainInv nfa es) (hc : c ≠ '@')
    (h : setChainFuel fuel nfa a b c = some (n', Except.ok ())) : ChainInv n' es := by
  obtain ⟨hA, hA', hB, hD, hC, hE⟩ := hinv
  have hck := setChain_ok_checked h
  have hres_a : nfa.reserved_state a = true := (check_state_eq_true.mp hck.1).2
  obtain ⟨row, hrow⟩ := Option.isSome_iff_exists.mp ((hA' a).mp hres_a)
  rw [setChain_sym_eq fuel hck hc hrow] at h
  have hn' : n' = { nfa with
      move_table := updFun nfa.move_table a
        (some (updFun (rowOne row c) c (some (insert b ((row c).getD ∅))))) } := by
    injection h with h1
    injection h1 with h2 h3
    exact h2.symm
  have hrs : n'.reserved_state = nfa.reserved_state := by rw [hn']
  have hch : n'.epsilon_chain = nfa.epsilon_chain := by rw [hn']
  have hmt : n'.move_table = updFun nfa.move_table a
      (some (updFun (rowOne row c) c (some (insert b ((row c).getD ∅))))) := by rw [hn']
  refine ⟨?_, ?_, ?_, ?_, ?_, ?_⟩
  · intro s
    rw [hrs, hch]
    exact hA s
  · intro s
    rw [hrs, hmt]
    by_cases hs : s = a
    · subst hs
      rw [updFun_same]
      exact iff_of_true hres_a rfl
    · rw [updFun_ne _ _ hs]
      exact hA' s
  · intro s hs
    rw [hrs] at hs
    exact hB s hs
  · intro e he
    rw [hrs]
    exact hD e he
  · intro p q
    rw [bwdSet, hch]
    exact hC p q
  · intro p q
    rw [fwdSet, hch]
    exact hE p q

theorem chainInv_chainEps {nfa n' : NFA} {es : List (Int × Int)} {a b : Int} {fuel : Nat}
    (hinv : ChainInv nfa es)
    (h : setChainFuel fuel nfa a b '@' = some (n', Except.ok ())) :
    ChainInv n' (es ++ [(a, b)]) := by
  obtain ⟨hA, hA', hB, hD, hC, hE⟩ := hinv
  obtain ⟨hck_a, hck_b, row, pa, pb, ch3, hrow, hpa, hpb, hw, hn'⟩ := setChain_eps_ok_inv h
  have hres_a : nfa.reserved_state a = true := (check_state_eq_true.mp hck_a).2
  have hres_b : nfa.reserved_state b = true := (check_state_eq_true.mp hck_b).2
  have hab : a ≠ b := by
    intro hq
    subst hq
    have hch2eq := chainAfterDirect_eq hpa hpb
    have hch2a : chainAfterDirect nfa a a a = some (pb.1, insert a pb.2) := by
      rw [hch2eq]
      exact updFun_same _ _ _
    have hnone := walkLoop_none_of_selfloop (epsFStates nfa a a) fuel
      (chainAfterDirect nfa a a) [a] (List.mem_singleton.mpr rfl)
      (by
        intro p hp
        rw [hch2a] at hp
        cases hp
        exact Finset.mem_insert_self _ _)
    rw [hnone] at hw
    cases hw
  have hpb' : nfa.epsilon_chain b = some pb := by
    rw [updFun_ne _ _ (Ne.symm hab)] at hpb
    exact hpb
  have hch2eq := chainAfterDirect_eq hpa hpb
  have hch2a : chainAfterDirect nfa a b a = some (insert b pa.1, pa.2) := by
    rw [hch2eq, updFun_ne _ _ hab, updFun_same]
  have hch2b : chainAfterDirect nfa a b b = some (pb.1, insert a pb.2) := by
    rw [hch2eq]
    exact updFun_same _ _ _
  have hch2other : ∀ x, x ≠ a → x ≠ b →
      chainAfterDirect nfa a b x = nfa.epsilon_chain x := by
    intro x hxa hxb
    rw [hch2eq, updFun_ne _ _ hxb, updFun_ne _ _ hxa]
  have hFS : epsFStates nfa a b = insert b pa.1 ∪ pb.1 := by
    simp only [epsFStates, hch2a, hch2b, Option.getD_some]
  have hfa : fwdSet nfa a = pa.1 := by simp [fwdSet, hpa]
  have hba : bwdSet nfa a = pa.2 := by simp [bwdSet, hpa]
  have hfb : fwdSet nfa b = pb.1 := by simp [fwdSet, hpb']
  have hbb : bwdSet nfa b = pb.2 := by simp [bwdSet, hpb']
  have hRbk : ∀ x y, Rbk (chainAfterDirect nfa a b) x y ↔
      EdgeRel (es ++ [(a, b)]) y x := by
    intro x y
    rw [edgeRel_append]
    constructor
    · rintro ⟨p, hp, hy⟩
      by_cases hxa : x = a
      · subst hxa
        rw [hch2a] at hp
        cases hp
        exact Or.inl ((hC y x).mp (by rw [hba]; exact hy))
      · by_cases hxb : x = b
        · subst hxb
          rw [hch2b] at hp
          cases hp
          rcases Finset.mem_insert.mp hy with rfl | hy
          · exact Or.inr ⟨rfl, rfl⟩
          · exact Or.inl ((hC y x).mp (by rw [hbb]; exact hy))
        · rw [hch2other x hxa hxb] at hp
          refine Or.inl ((hC y x).mp ?_)
          rw [bwdSet, hp]
          exact hy
    · rintro (hyx | ⟨rfl, rfl⟩)
      · have hyB := (hC y x).mpr hyx
        by_cases hxa : x = a
        · subst hxa
          refine ⟨_, hch2a, ?_⟩
          rw [hba] at hyB
          exact hyB
        · by_cases hxb : x = b
          · subst hxb
            refine ⟨_, hch2b, ?_⟩
            rw [hbb] at hyB
            exact Finset.mem_insert_of_mem hyB
          · have hresx := (hD (y, x) hyx).2
            obtain ⟨px, hpx⟩ := Option.isSome_iff_exists.mp ((hA x).mp hresx)
            refine ⟨px, by rw [hch2other x hxa hxb]; exact hpx, ?_⟩
            rw [bwdSet, hpx] at hyB
            exact hyB
      · exact ⟨_, hch2b, Finset.mem_insert_self _ _⟩
  have hV : ∀ p, Visited (chainAfterDirect nfa a b) [a] p ↔
      Relation.ReflTransGen (EdgeRel (es ++ [(a, b)])) p a := by
    intro p
    unfold Visited
    constructor
    · rintro ⟨t, ht, hr⟩
      have ht' := List.mem_singleton.mp ht
      subst ht'
      have hr2 := (rtg_congr (fun x y => hRbk x y)).mp hr
      exact rtg_swap hr2
    · intro hr
      refine ⟨a, List.mem_singleton.mpr rfl, ?_⟩
      exact (rtg_congr (fun x y => hRbk x y)).mpr (rtg_swap hr)
  obtain ⟨hw1, hw2⟩ := walkLoop_spec _ fuel _ _ _ hw
  have hrs : n'.reserved_state = nfa.reserved_state := by rw [hn']
  have hmt : n'.move_table = updFun nfa.move_table a
      (some (updFun (rowOne row '@') '@' (some (insert b ((row '@').getD ∅))))) := by
    rw [hn']
  have hchn : n'.epsilon_chain = ch3 := by rw [hn']
  have hDomIff : ∀ s, (chainAfterDirect nfa a b s).isSome ↔
      nfa.reserved_state s = true := by
    intro s
    by_cases hsa : s = a
    · subst hsa
      rw [hch2a]
      exact iff_of_true rfl hres_a
    · by_cases hsb : s = b
      · subst hsb
        rw [hch2b]
        exact iff_of_true rfl hres_b
      · rw [hch2other s hsa hsb]
        exact (hA s).symm
  have hbk3 : ∀ s g bk2, chainAfterDirect nfa a b s = some (g, bk2) →
      ∃ g', ch3 s = some (g', bk2) := by
    intro s g bk2 hc2
    by_cases hvis : Visited (chainAfterDirect nfa a b) [a] s
    · exact ⟨g ∪ epsFStates nfa a b, (hw2 s g bk2 hc2).1 hvis⟩
    · exact ⟨g, (hw2 s g bk2 hc2).2 hvis⟩
  have hch3Dom : ∀ s, (ch3 s).isSome ↔ (chainAfterDirect nfa a b s).isSome := by
    intro s
    cases hc2 : chainAfterDirect nfa a b s with
    | none =>
      rw [(hw1 s hc2).1]
    | some p =>
      obtain ⟨g, bk2⟩ := p
      obtain ⟨g', hg'⟩ := hbk3 s g bk2 hc2
      rw [hg']
      simp
  have hEmono : ∀ {x y : Int}, Relation.TransGen (EdgeRel es) x y →
      Relation.TransGen (EdgeRel (es ++ [(a, b)])) x y := fun hx => transGen_es_mono hx
  have hedge_ab : EdgeRel (es ++ [(a, b)]) a b :=
    edgeRel_append.mpr (Or.inr ⟨rfl, rfl⟩)
  refine ⟨?_, ?_, ?_, ?_, ?_, ?_⟩
  · -- reserved ↔ epsilon_chain entry
    intro s
    rw [hrs, hchn, hch3Dom s, hDomIff s]
  · -- reserved ↔ move_table entry
    intro s
    rw [hrs, hmt]
    by_cases hs : s = a
    · subst hs
      rw [updFun_same]
      exact iff_of_true hres_a rfl
    · rw [updFun_ne _ _ hs]
      exact hA' s
  · -- reserved states are in range
    intro s hs
    rw [hrs] at hs
    exact hB s hs
  · -- edges join reserved states
    intro e he
    rw [hrs]
    rcases List.mem_append.mp he with he | he
    · exact hD e he
    · have he' := List.mem_singleton.mp he
      subst he'
      exact ⟨hres_a, hres_b⟩
  · -- back-sets are the direct predecessors
    intro p q
    rw [bwdSet, hchn]
    cases hc2 : chainAfterDirect nfa a b q with
    | none =>
      rw [(hw1 q hc2).1]
      refine iff_of_false (by simp) ?_
      intro hpq
      have hresq : nfa.reserved_state q = true := by
        rcases List.mem_append.mp hpq with hpq | hpq
        · exact (hD (p, q) hpq).2
        · have hq := List.mem_singleton.mp hpq
          cases hq
          exact hres_b
      have := (hDomIff q).mpr hresq
      rw [hc2] at this
      cases this
    | some pr =>
      obtain ⟨g, bk2⟩ := pr
      obtain ⟨g', hg'⟩ := hbk3 q g bk2 hc2
      rw [hg']
      simp only [Option.getD_some]
      have hmem : p ∈ bk2 ↔ Rbk (chainAfterDirect nfa a b) q p := by
        constructor
        · intro hp
          exact ⟨(g, bk2), hc2, hp⟩
        · rintro ⟨pp, hpp, hp⟩
          rw [hc2] at hpp
          cases hpp
          exact hp
      rw [hmem, hRbk q p]
      exact Iff.rfl
  · -- forward sets are the non-empty-path closure
    intro p q
    rw [fwdSet, hchn]
    cases hc2 : chainAfterDirect nfa a b p with
    | none =>
      rw [(hw1 p hc2).1]
      refine iff_of_false (by simp) ?_
      intro hpq
      obtain ⟨y, hy, -⟩ := Relation.TransGen.head'_iff.mp hpq
      have hresp : nfa.reserved_state p = true := by
        rcases edgeRel_append.mp hy with hy | ⟨rfl, -⟩
        · exact (hD (p, y) hy).1
        · exact hres_a
      have := (hDomIff p).mpr hresp
      rw [hc2] at this
      cases this
    | some pr =>
      obtain ⟨g, bk2⟩ := pr
      by_cases hpa' : p = a
      · -- the source of the new edge: always visited
        subst hpa'
        have hvis : Visited (chainAfterDirect nfa p b) [p] p :=
          (hV p).mpr Relation.ReflTransGen.refl
        rw [hch2a] at hc2
        cases hc2
        rw [(hw2 p _ _ hch2a).1 hvis]
        simp only [Option.getD_some]
        rw [hFS]
        constructor
        · intro hq
          have hq' : q = b ∨ q ∈ pa.1 ∨ q ∈ pb.1 := by
            rcases Finset.mem_union.mp hq with hq | hq
            · rcases Finset.mem_insert.mp hq with rfl | hq
              · exact Or.inl rfl
              · exact Or.inr (Or.inl hq)
            · rcases Finset.mem_union.mp hq with hq | hq
              · rcases Finset.mem_insert.mp hq with rfl | hq
                · exact Or.inl rfl
                · exact Or.inr (Or.inl hq)
              · exact Or.inr (Or.inr hq)
          rcases hq' with rfl | hq' | hq'
          · exact Relation.TransGen.single hedge_ab
          · exact hEmono ((hE p q).mp (by rw [hfa]; exact hq'))
          · exact Relation.TransGen.head hedge_ab
              (hEmono ((hE b q).mp (by rw [hfb]; exact hq')))
        · intro hq
          have hq' := transGen_last (transGen_append_iff.mp hq)
          rcases hq' with hq' | hq'
          · have := (hE p q).mpr hq'
            rw [hfa] at this
            exact Finset.mem_union_left _ (Finset.mem_insert_of_mem this)
          · rcases Relation.reflTransGen_iff_eq_or_transGen.mp hq' with rfl | hq'
            · exact Finset.mem_union_left _ (Finset.mem_insert_self _ _)
            · have := (hE b q).mpr hq'
              rw [hfb] at this
              exact Finset.mem_union_right _ (Finset.mem_union_right _ this)
      · -- p is not the edge source
        have hg : g = fwdSet nfa p := by
          by_cases hpb2 : p = b
          · subst hpb2
            rw [hch2b] at hc2
            cases hc2
            rw [hfb]
          · rw [hch2other p hpa' hpb2] at hc2
            simp [fwdSet, hc2]
        by_cases hvis : Visited (chainAfterDirect nfa a b) [a] p
        · have hpath : Relation.ReflTransGen (EdgeRel (es ++ [(a, b)])) p a :=
            (hV p).mp hvis
          rw [(hw2 p g bk2 hc2).1 hvis]
          simp only [Option.getD_some]
          rw [hFS, hg]
          constructor
          · intro hq
            have hq' : q ∈ fwdSet nfa p ∨ q = b ∨ q ∈ pa.1 ∨ q ∈ pb.1 := by
              rcases Finset.mem_union.mp hq with hq | hq
              · exact Or.inl hq
              · rcases Finset.mem_union.mp hq with hq | hq
                · rcases Finset.mem_insert.mp hq with rfl | hq
                  · exact Or.inr (Or.inl rfl)
                  · exact Or.inr (Or.inr (Or.inl hq))
                · exact Or.inr (Or.inr (Or.inr hq))
            rcases hq' with hq' | rfl | hq' | hq'
            · exact hEmono ((hE p q).mp hq')
            · exact Relation.TransGen.tail' hpath hedge_ab
            · exact Relation.TransGen.trans_right hpath
                (hEmono ((hE a q).mp (by rw [hfa]; exact hq')))
            · exact Relation.TransGen.trans (Relation.TransGen.tail' hpath hedge_ab)
                (hEmono ((hE b q).mp (by rw [hfb]; exact hq')))
          · intro hq
            have hq' := transGen_last (transGen_append_iff.mp hq)
            rcases hq' with hq' | hq'
            · exact Finset.mem_union_left _ ((hE p q).mpr hq')
            · rcases Relation.reflTransGen_iff_eq_or_transGen.mp hq' with rfl | hq'
              · exact Finset.mem_union_right _ (Finset.mem_union_left _
                  (Finset.mem_insert_self _ _))
              · have := (hE b q).mpr hq'
                rw [hfb] at this
                exact Finset.mem_union_right _ (Finset.mem_union_right _ this)
        · rw [(hw2 p g bk2 hc2).2 hvis]
          simp only [Option.getD_some]
          rw [hg]
          constructor
          · intro hq
            exact hEmono ((hE p q).mp hq)
          · intro hq
            have hq' := transGen_first (transGen_append_iff.mp hq)
            rcases hq' with hq' | hq'
            · exact (hE p q).mpr hq'
            · exfalso
              apply hvis
              refine (hV p).mpr ?_
              exact Relation.ReflTransGen.mono
                (fun x y hxy => edgeRel_append.mpr (Or.inl hxy)) hq'

theorem built_ChainInv {n : NFA} {es : List (Int × Int)} (hb : Built n es) :
    ChainInv n es := by
  induction hb with
  | new f t n h => exact chainInv_new h
  | reserveStep n es f t n' hb h ih => exact chainInv_reserve ih h
  | chainEps n es a b fuel n' hb h ih => exact chainInv_chainEps ih h
  | chainSym n es a b c fuel n' hb hc h ih => exact chainInv_chainSym ih hc h

/-! ### Simulation -/

theorem WFb_forall {nfa : NFA} (h : nfa.WFb) :
    ∀ u, nfa.check_state u = true →
      (nfa.move_table u).isSome ∧ (nfa.epsilon_chain u).isSome := by
  intro u hu
  have hb := (check_state_eq_true.mp hu).1
  refine h u (Finset.mem_Icc.mpr ?_) hu
  constructor
  · exact hb.1
  · have := hb.2
    unfold NODE_LIMIT at this
    omega

theorem get_closure_eq {nfa : NFA} (s : Int) (c : Char)
    (hwf : ∀ u, nfa.check_state u = true → (nfa.move_table u).isSome) :
    nfa.get_closure s c = some (stepSet nfa s c) := by
  unfold NFA.get_closure stepSet
  by_cases hs : nfa.check_state s = true
  · simp only [hs, if_true]
    obtain ⟨row, hrow⟩ := Option.isSome_iff_exists.mp (hwf s hs)
    rw [hrow]
    cases hc : row c <;> simp [hc]
  · simp only [hs]
    simp

theorem get_epsilon_closure_eq {nfa : NFA} (S : Finset Int)
    (hwf : ∀ u, nfa.check_state u = true → (nfa.epsilon_chain u).isSome) :
    nfa.get_epsilon_closure S = some (epsClosureSet nfa S) := by
  unfold NFA.get_epsilon_closure epsClosureSet
  rw [if_pos (fun s _ => hwf s)]
  rfl

theorem stepAll_eq {nfa : NFA} (old : Finset Int) (c : Char)
    (hwf : ∀ u, nfa.check_state u = true → (nfa.move_table u).isSome) :
    stepAll nfa old c = some (old.biUnion fun s => stepSet nfa s c) := by
  unfold stepAll
  have hall : ∀ s ∈ old, (nfa.get_closure s c).isSome := by
    intro s _
    rw [get_closure_eq s c hwf]
    rfl
  rw [if_pos hall]
  congr 1
  refine Finset.biUnion_congr rfl ?_
  intro s _
  rw [get_closure_eq s c hwf]
  rfl

theorem simLoop_eq {nfa : NFA}
    (hwf1 : ∀ u, nfa.check_state u = true → (nfa.move_table u).isSome)
    (hwf2 : ∀ u, nfa.check_state u = true → (nfa.epsilon_chain u).isSome) :
    ∀ (cs : List Char) (act : Finset Int),
    simLoop nfa cs act = some (decide (nfa.finish ∈ List.foldl (codeStep nfa) act cs)) := by
  intro cs
  induction cs with
  | nil =>
    intro act
    rfl
  | cons c rest ih =>
    intro act
    rw [simLoop.eq_def]
    simp only [stepAll_eq act c hwf1, get_epsilon_closure_eq act hwf2]
    simp only [List.foldl_cons]
    exact ih (codeStep nfa act c)

theorem simulate_eq_fold {nfa : NFA} (hwf : nfa.WFb)
    (hstart : nfa.check_state nfa.start = true) (target : List Char) :
    nfa.simulate target =
      some (decide (nfa.finish ∈
        List.foldl (codeStep nfa) (insert nfa.start (fwdSet nfa nfa.start)) target)) := by
  have hwf1 : ∀ u, nfa.check_state u = true → (nfa.move_table u).isSome :=
    fun u hu => (WFb_forall hwf u hu).1
  have hwf2 : ∀ u, nfa.check_state u = true → (nfa.epsilon_chain u).isSome :=
    fun u hu => (WFb_forall hwf u hu).2
  obtain ⟨p, hp⟩ := Option.isSome_iff_exists.mp (hwf2 nfa.start hstart)
  have hfs : fwdSet nfa nfa.start = p.1 := by simp [fwdSet, hp]
  unfold NFA.simulate
  simp only [hp]
  rw [hfs]
  exact simLoop_eq hwf1 hwf2 target _

/-! ### Idempotence of `set_chain` -/

theorem rowOne_of_isSome {row : Char → Option (Finset Int)} {c : Char}
    (h : (row c).isSome) : rowOne row c = row := by
  simp [rowOne, h]

theorem check_state_congr {n1 n2 : NFA} (h : n1.reserved_state = n2.reserved_state)
    (s : Int) : n1.check_state s = n2.check_state s := by
  unfold NFA.check_state
  rw [h]

theorem rbk_imp_of_snd_eq {ch ch' : Int → Option (Finset Int × Finset Int)}
    (h : ∀ x, (ch x).map Prod.snd = (ch' x).map Prod.snd)
    {x y : Int} (hr : Rbk ch x y) : Rbk ch' x y := by
  obtain ⟨p, hp, hy⟩ := hr
  have hx := h x
  rw [hp] at hx
  cases hq : ch' x with
  | none =>
    rw [hq] at hx
    cases hx
  | some p' =>
    rw [hq] at hx
    simp only [Option.map_some'] at hx
    refine ⟨p', hq, ?_⟩
    injection hx with h2
    rw [← h2]
    exact hy

theorem walk_snd_eq {fs : Finset Int} {fuel : Nat}
    {ch ch' : Int → Option (Finset Int × Finset Int)} {stack : List Int}
    (hw : walkLoop fs fuel ch stack = some ch') :
    ∀ x, (ch x).map Prod.snd = (ch' x).map Prod.snd := by
  obtain ⟨h1, h2⟩ := walkLoop_spec fs fuel ch stack ch' hw
  intro x
  cases hc : ch x with
  | none =>
    rw [(h1 x hc).1]
  | some p =>
    obtain ⟨g, bk⟩ := p
    by_cases hvis : Visited ch stack x
    · rw [(h2 x g bk hc).1 hvis]
      rfl
    · rw [(h2 x g bk hc).2 hvis]

theorem setChain_mt_isSome {fuel : Nat} {nfa n' : NFA} {a b : Int} {c : Char}
    (h : setChainFuel fuel nfa a b c = some (n', Except.ok ())) :
    (nfa.move_table a).isSome := by
  have hck := setChain_ok_checked h
  cases hrow : nfa.move_table a with
  | none =>
    rw [setChainFuel, if_neg (not_not_intro hck)] at h
    simp only [hrow] at h
    cases h
  | some row => rfl

theorem setChain_idem {fuel : Nat} {nfa n' : NFA} {a b : Int} {c : Char}
    (h : setChainFuel fuel nfa a b c = some (n', Except.ok ())) :
    setChainFuel fuel n' a b c = some (n', Except.ok ()) := by
  have hck := setChain_ok_checked h
  obtain ⟨row, hrow⟩ := Option.isSome_iff_exists.mp (setChain_mt_isSome h)
  by_cases hc : c = '@'
  · -- epsilon insertion
    subst hc
    obtain ⟨-, -, row', pa, pb, ch3, hrow', hpa, hpb, hw, hn'⟩ := setChain_eps_ok_inv h
    have hroweq : row' = row := by
      rw [hrow] at hrow'
      injection hrow' with hq
      exact hq.symm
    rw [hroweq] at hn'
    have hab : a ≠ b := by
      intro hq
      subst hq
      have hch2eq := chainAfterDirect_eq hpa hpb
      have hch2a : chainAfterDirect nfa a a a = some (pb.1, insert a pb.2) := by
        rw [hch2eq]
        exact updFun_same _ _ _
      have hnone := walkLoop_none_of_selfloop (epsFStates nfa a a) fuel
        (chainAfterDirect nfa a a) [a] (List.mem_singleton.mpr rfl)
        (by
          intro p hp
          rw [hch2a] at hp
          cases hp
          exact Finset.mem_insert_self _ _)
      rw [hnone] at hw
      cases hw
    have hpb' : nfa.epsilon_chain b = some pb := by
      rw [updFun_ne _ _ (Ne.symm hab)] at hpb
      exact hpb
    have hch2eq := chainAfterDirect_eq hpa hpb
    have hch2a : chainAfterDirect nfa a b a = some (insert b pa.1, pa.2) := by
      rw [hch2eq, updFun_ne _ _ hab, updFun_same]
    have hch2b : chainAfterDirect nfa a b b = some (pb.1, insert a pb.2) := by
      rw [hch2eq]
      exact updFun_same _ _ _
    have hFS : epsFStates nfa a b = insert b pa.1 ∪ pb.1 := by
      simp only [epsFStates, hch2a, hch2b, Option.getD_some]
    obtain ⟨hw1, hw2⟩ := walkLoop_spec _ fuel _ _ _ hw
    have hvisa : Visited (chainAfterDirect nfa a b) [a] a :=
      ⟨a, List.mem_singleton.mpr rfl, Relation.ReflTransGen.refl⟩
    have hch3a : ch3 a = some (insert b pa.1 ∪ epsFStates nfa a b, pa.2) :=
      (hw2 a _ _ hch2a).1 hvisa
    obtain ⟨gb, hch3b, hgb⟩ : ∃ gb, ch3 b = some (gb, insert a pb.2) ∧
        (gb = pb.1 ∨ gb = pb.1 ∪ epsFStates nfa a b) := by
      by_cases hvis : Visited (chainAfterDirect nfa a b) [a] b
      · exact ⟨_, (hw2 b _ _ hch2b).1 hvis, Or.inr rfl⟩
      · exact ⟨_, (hw2 b _ _ hch2b).2 hvis, Or.inl rfl⟩
    have hrs : n'.reserved_state = nfa.reserved_state := by rw [hn']
    have hmt : n'.move_table = updFun nfa.move_table a
        (some (updFun (rowOne row '@') '@' (some (insert b ((row '@').getD ∅))))) := by
      rw [hn']
    have hchn : n'.epsilon_chain = ch3 := by rw [hn']
    have hck' : n'.check_state a = true ∧ n'.check_state b = true := by
      rw [check_state_congr hrs a, check_state_congr hrs b]
      exact hck
    have hrow2 : n'.move_table a =
        some (updFun (rowOne row '@') '@' (some (insert b ((row '@').getD ∅)))) := by
      rw [hmt]
      exact updFun_same _ _ _
    have hbfs : b ∈ insert b pa.1 ∪ epsFStates nfa a b :=
      Finset.mem_union_left _ (Finset.mem_insert_self _ _)
    have hpa2 : n'.epsilon_chain a =
        some (insert b pa.1 ∪ epsFStates nfa a b, pa.2) := by
      rw [hchn]
      exact hch3a
    have hins_a : insert b (insert b pa.1 ∪ epsFStates nfa a b) =
        insert b pa.1 ∪ epsFStates nfa a b := Finset.insert_eq_self.mpr hbfs
    have hch1_eq : updFun n'.epsilon_chain a
        (some (insert b (insert b pa.1 ∪ epsFStates nfa a b), pa.2)) =
        n'.epsilon_chain := by
      apply updFun_self
      rw [hpa2, hins_a]
    have hpb2 : updFun n'.epsilon_chain a
        (some (insert b (insert b pa.1 ∪ epsFStates nfa a b), pa.2)) b =
        some (gb, insert a pb.2) := by
      rw [hch1_eq, hchn]
      exact hch3b
    have hstep := @setChain_eps_eq n' a b
      (updFun (rowOne row '@') '@' (some (insert b ((row '@').getD ∅))))
      (insert b pa.1 ∪ epsFStates nfa a b, pa.2)
      (gb, insert a pb.2) fuel hck' hrow2 hpa2 hpb2
    have hins_b : insert a (insert a pb.2) = insert a pb.2 :=
      Finset.insert_eq_self.mpr (Finset.mem_insert_self _ _)
    have hcad2 : chainAfterDirect n' a b = ch3 := by
      rw [chainAfterDirect_eq hpa2 hpb2]
      rw [show ((gb, insert a pb.2).1, insert a (gb, insert a pb.2).2) =
        (gb, insert a pb.2) from by rw [hins_b]]
      rw [hch1_eq, hchn]
      apply updFun_self
      exact hch3b
    have hsub_b : pb.1 ⊆ epsFStates nfa a b := by
      rw [hFS]
      exact Finset.subset_union_right
    have hXF : insert b pa.1 ∪ epsFStates nfa a b = epsFStates nfa a b := by
      rw [hFS, ← Finset.union_assoc, Finset.union_self]
    have hFS2 : epsFStates n' a b = epsFStates nfa a b := by
      have e1 : epsFStates n' a b =
          (insert b pa.1 ∪ epsFStates nfa a b) ∪ gb := by
        rw [show epsFStates n' a b =
          (((chainAfterDirect n' a b) a).getD (∅, ∅)).1 ∪
            (((chainAfterDirect n' a b) b).getD (∅, ∅)).1 from rfl]
        rw [hcad2, hch3a, hch3b]
        rfl
      rw [e1, hXF]
      rcases hgb with rfl | rfl
      · rw [Finset.union_eq_left.mpr hsub_b]
      · rw [← Finset.union_assoc, Finset.union_eq_left.mpr hsub_b, Finset.union_self]
    have hsnd := walk_snd_eq hw
    have hterm : (walkLoop (epsFStates n' a b) fuel ch3 [a]).isSome := by
      refine walkLoop_isSome_congr (epsFStates nfa a b) (epsFStates n' a b) fuel
        (chainAfterDirect nfa a b) ch3 [a] hsnd ?_
      rw [hw]
      rfl
    obtain ⟨ch3', hch3'⟩ := Option.isSome_iff_exists.mp hterm
    obtain ⟨hw1', hw2'⟩ := walkLoop_spec _ fuel _ _ _ hch3'
    have hvis_iff : ∀ x, Visited ch3 [a] x ↔
        Visited (chainAfterDirect nfa a b) [a] x := by
      intro x
      exact visited_congr (fun u v =>
        ⟨rbk_imp_of_snd_eq (fun w => (hsnd w).symm),
         rbk_imp_of_snd_eq hsnd⟩) [a] x
    have hch3'_eq : ch3' = ch3 := by
      funext x
      cases hcx : chainAfterDirect nfa a b x with
      | none =>
        have hx3 : ch3 x = none := (hw1 x hcx).1
        rw [(hw1' x hx3).1, hx3]
      | some p =>
        obtain ⟨g, bk⟩ := p
        by_cases hvis : Visited (chainAfterDirect nfa a b) [a] x
        · have hx3 : ch3 x = some (g ∪ epsFStates nfa a b, bk) := (hw2 x g bk hcx).1 hvis
          have hq := (hw2' x _ _ hx3).1 ((hvis_iff x).mpr hvis)
          rw [hq, hx3, hFS2, Finset.union_assoc, Finset.union_self]
        · have hx3 : ch3 x = some (g, bk) := (hw2 x g bk hcx).2 hvis
          have hq := (hw2' x _ _ hx3).2 (fun hv => hvis ((hvis_iff x).mp hv))
          rw [hq, hx3]
    rw [hstep, hcad2, hch3']
    simp only [Option.map_some']
    rw [hch3'_eq, ← hchn]
    have hr2c : (updFun (rowOne row '@') '@' (some (insert b ((row '@').getD ∅)))) '@' =
        some (insert b ((row '@').getD ∅)) := updFun_same _ _ _
    have hro : rowOne (updFun (rowOne row '@') '@'
        (some (insert b ((row '@').getD ∅)))) '@' =
        updFun (rowOne row '@') '@' (some (insert b ((row '@').getD ∅))) := by
      apply rowOne_of_isSome
      rw [hr2c]
      rfl
    rw [hro, hr2c, Option.getD_some, Finset.insert_idem]
    rw [updFun_self hr2c, updFun_self hrow2]
  · -- plain symbol
    rw [setChain_sym_eq fuel hck hc hrow] at h
    have hn' : n' = { nfa with
        move_table := updFun nfa.move_table a
          (some (updFun (rowOne row c) c (some (insert b ((row c).getD ∅))))) } := by
      injection h with h1
      injection h1 with h2 h3
      exact h2.symm
    have hrs : n'.reserved_state = nfa.reserved_state := by rw [hn']
    have hck' : n'.check_state a = true ∧ n'.check_state b = true := by
      rw [check_state_congr hrs a, check_state_congr hrs b]
      exact hck
    have hrow2 : n'.move_table a =
        some (updFun (rowOne row c) c (some (insert b ((row c).getD ∅)))) := by
      rw [hn']
      exact updFun_same _ _ _
    rw [setChain_sym_eq fuel hck' hc hrow2]
    have hr2c : (updFun (rowOne row c) c (some (insert b ((row c).getD ∅)))) c =
        some (insert b ((row c).getD ∅)) := updFun_same _ _ _
    have hro : rowOne (updFun (rowOne row c) c
        (some (insert b ((row c).getD ∅)))) c =
        updFun (rowOne row c) c (some (insert b ((row c).getD ∅))) := by
      apply rowOne_of_isSome
      rw [hr2c]
      rfl
    rw [hro, hr2c, Option.getD_some, Finset.insert_idem]
    rw [updFun_self hr2c, updFun_self hrow2]

/-! ### The merge scan -/

theorem check_state_in_range {nfa : NFA} {s : Int} (h1 : 0 ≤ s)
    (h2 : s < (NODE_LIMIT : Int)) : nfa.check_state s = nfa.reserved_state s := by
  unfold NFA.check_state
  rw [if_pos ⟨h1, h2⟩]

theorem mergeScan_spec (B : NFA) (hB0 : B.reserved_state 0 = false) :
    ∀ (n : Nat) (i : Int) (acc : NFA) (rsf : Int),
    i = (NODE_LIMIT : Int) - n → n ≤ NODE_LIMIT →
    (∀ s, i ≤ s → s < (NODE_LIMIT : Int) → B.reserved_state s = true →
      acc.reserved_state s = false) →
    (rsf = -1 ∨ (1 ≤ rsf ∧ rsf < i ∧ ∀ t, rsf ≤ t → t < i →
      B.reserved_state t = true ∧ acc.reserved_state t = false)) →
    ∃ acc' rsf', mergeScan B acc rsf (rangeClosedAux i n) = some (.ok (acc', rsf')) ∧
      (∀ s, acc'.reserved_state s = true ↔
        (acc.reserved_state s = true ∨
          (B.reserved_state s = true ∧
            ((i ≤ s ∧ s < (NODE_LIMIT : Int)) ∨ (1 ≤ rsf ∧ rsf ≤ s ∧ s < i)) ∧
            ¬ (1 ≤ rsf' ∧ rsf' ≤ s)))) ∧
      (∀ s, B.reserved_state s = true →
        ((i ≤ s ∧ s < (NODE_LIMIT : Int)) ∨ (1 ≤ rsf ∧ rsf ≤ s ∧ s < i)) →
        ¬ (1 ≤ rsf' ∧ rsf' ≤ s) →
        acc'.move_table s = some emptyRow ∧ acc'.epsilon_chain s = some (∅, ∅)) ∧
      (rsf' = -1 ∨ (1 ≤ rsf' ∧ rsf' < (NODE_LIMIT : Int) ∧ ∀ t, rsf' ≤ t →
        t < (NODE_LIMIT : Int) →
        B.reserved_state t = true ∧ acc'.reserved_state t = false)) ∧
      (∀ s, acc.reserved_state s = true →
        acc'.move_table s = acc.move_table s ∧
        acc'.epsilon_chain s = acc.epsilon_chain s) := by
  intro n
  induction n with
  | zero =>
    intro i acc rsf hi _ _ hrun
    have hi1000 : i = (NODE_LIMIT : Int) := by
      rw [hi]
      omega
    refine ⟨acc, rsf, rfl, ?_, ?_, ?_, fun s _ => ⟨rfl, rfl⟩⟩
    · intro s
      constructor
      · exact fun h => Or.inl h
      · rintro (h | ⟨hb, hr | hr, hp⟩)
        · exact h
        · exact absurd hr (by omega)
        · rcases hrun with rfl | ⟨h1, h2, h3⟩
          · exact absurd hr (by omega)
          · exact absurd ⟨h1, hr.2.1⟩ hp
    · intro s hb hr hp
      rcases hr with hr | hr
      · exact absurd hr (by omega)
      · rcases hrun with rfl | ⟨h1, h2, h3⟩
        · exact absurd hr (by omega)
        · exact absurd ⟨h1, hr.2.1⟩ hp
    · rcases hrun with rfl | ⟨h1, h2, h3⟩
      · exact Or.inl rfl
      · refine Or.inr ⟨h1, by omega, ?_⟩
        intro t ht1 ht2
        exact h3 t ht1 (by omega)
  | succ m ih =>
    intro i acc rsf hi hn hfree hrun
    have hi999 : 0 ≤ i ∧ i < (NODE_LIMIT : Int) := by
      unfold NODE_LIMIT at hi hn ⊢
      omega
    have hcheck : B.check_state i = B.reserved_state i :=
      check_state_in_range hi999.1 hi999.2
    rw [rangeClosedAux]
    cases hbi : B.reserved_state i with
    | true =>
      have hne0 : i ≠ 0 := by
        intro hq
        rw [hq, hB0] at hbi
        cases hbi
      have hi1 : 1 ≤ i := by omega
      have hstep : mergeScan B acc rsf (i :: rangeClosedAux (i + 1) m) =
          (if rsf < 0 then mergeScan B acc i (rangeClosedAux (i + 1) m)
           else mergeScan B acc rsf (rangeClosedAux (i + 1) m)) := by
        rw [mergeScan.eq_def]
        simp only [hcheck, hbi, if_true]
      rcases hrun with rfl | ⟨h1, h2, h3⟩
      · -- start a new run at i
        obtain ⟨acc', rsf', hscan, hres, hent, hrun', hpres⟩ :=
          ih (i + 1) acc i (by omega) (by omega)
            (fun s hs1 hs2 hb => hfree s (by omega) hs2 hb)
            (Or.inr ⟨hi1, by omega, fun t ht1 ht2 => by
              have ht : t = i := by omega
              subst ht
              exact ⟨hbi, hfree t (le_refl _) hi999.2 hbi⟩⟩)
        refine ⟨acc', rsf', ?_, ?_, ?_, hrun', hpres⟩
        · rw [hstep, if_pos (by omega : (-1 : Int) < 0)]
          exact hscan
        · intro s
          rw [hres s]
          constructor
          · rintro (h | ⟨hb, hr, hp⟩)
            · exact Or.inl h
            · refine Or.inr ⟨hb, ?_, hp⟩
              left
              omega
          · rintro (h | ⟨hb, hr | hr, hp⟩)
            · exact Or.inl h
            · by_cases hs : s = i
              · subst hs
                exact Or.inr ⟨hb, Or.inr ⟨hi1, le_refl _, by omega⟩, hp⟩
              · exact Or.inr ⟨hb, Or.inl ⟨by omega, hr.2⟩, hp⟩
            · exact absurd hr (by omega)
        · intro s hb hr hp
          refine hent s hb ?_ hp
          rcases hr with hr | hr
          · by_cases hs : s = i
            · subst hs
              exact Or.inr ⟨hi1, le_refl _, by omega⟩
            · exact Or.inl ⟨by omega, hr.2⟩
          · exact absurd hr (by omega)
      · -- continue the current run
        obtain ⟨acc', rsf', hscan, hres, hent, hrun', hpres⟩ :=
          ih (i + 1) acc rsf (by omega) (by omega)
            (fun s hs1 hs2 hb => hfree s (by omega) hs2 hb)
            (Or.inr ⟨h1, by omega, fun t ht1 ht2 => by
              by_cases ht : t = i
              · subst ht
                exact ⟨hbi, hfree t (le_refl _) hi999.2 hbi⟩
              · exact h3 t ht1 (by omega)⟩)
        refine ⟨acc', rsf', ?_, ?_, ?_, hrun', hpres⟩
        · rw [hstep, if_neg (by omega : ¬ rsf < 0)]
          exact hscan
        · intro s
          rw [hres s]
          constructor
          · rintro (h | ⟨hb, hr | hr, hp⟩)
            · exact Or.inl h
            · exact Or.inr ⟨hb, Or.inl ⟨by omega, hr.2⟩, hp⟩
            · by_cases hs : s = i
              · exact Or.inr ⟨hb, Or.inl ⟨by omega, by omega⟩, hp⟩
              · exact Or.inr ⟨hb, Or.inr ⟨h1, hr.2.1, by omega⟩, hp⟩
          · rintro (h | ⟨hb, hr | hr, hp⟩)
            · exact Or.inl h
            · by_cases hs : s = i
              · subst hs
                exact Or.inr ⟨hb, Or.inr ⟨h1, by omega, by omega⟩, hp⟩
              · exact Or.inr ⟨hb, Or.inl ⟨by omega, hr.2⟩, hp⟩
            · by_cases hs : s = i
              · exact Or.inr ⟨hb, Or.inl ⟨by omega, by omega⟩, hp⟩
              · exact Or.inr ⟨hb, Or.inr ⟨h1, hr.2.1, by omega⟩, hp⟩
        · intro s hb hr hp
          refine hent s hb ?_ hp
          rcases hr with hr | hr
          · by_cases hs : s = i
            · subst hs
              exact Or.inr ⟨h1, by omega, by omega⟩
            · exact Or.inl ⟨by omega, hr.2⟩
          · exact Or.inr ⟨h1, hr.2.1, by omega⟩
    | false =>
      have hstep : mergeScan B acc rsf (i :: rangeClosedAux (i + 1) m) =
          (if rsf > 0 then
            (match acc.reserve rsf (i - 1) with
             | .ok acc2 => mergeScan B acc2 (-1) (rangeClosedAux (i + 1) m)
             | .err _ e => some (.error e)
             | .oob => none)
           else mergeScan B acc rsf (rangeClosedAux (i + 1) m)) := by
        rw [mergeScan.eq_def]
        simp only [hcheck, hbi, Bool.false_eq_true, if_false]
      rcases hrun with rfl | ⟨h1, h2, h3⟩
      · -- no pending run: skip this state
        obtain ⟨acc', rsf', hscan, hres, hent, hrun', hpres⟩ :=
          ih (i + 1) acc (-1) (by omega) (by omega)
            (fun s hs1 hs2 hb => hfree s (by omega) hs2 hb)
            (Or.inl rfl)
        refine ⟨acc', rsf', ?_, ?_, ?_, hrun', hpres⟩
        · rw [hstep, if_neg (by omega : ¬ (-1 : Int) > 0)]
          exact hscan
        · intro s
          rw [hres s]
          constructor
          · rintro (h | ⟨hb, hr | hr, hp⟩)
            · exact Or.inl h
            · exact Or.inr ⟨hb, Or.inl ⟨by omega, hr.2⟩, hp⟩
            · exact absurd hr (by omega)
          · rintro (h | ⟨hb, hr | hr, hp⟩)
            · exact Or.inl h
            · by_cases hs : s = i
              · subst hs
                rw [hb] at hbi
                cases hbi
              · exact Or.inr ⟨hb, Or.inl ⟨by omega, hr.2⟩, hp⟩
            · exact absurd hr (by omega)
        · intro s hb hr hp
          refine hent s hb ?_ hp
          rcases hr with hr | hr
          · by_cases hs : s = i
            · subst hs
              rw [hb] at hbi
              cases hbi
            · exact Or.inl ⟨by omega, hr.2⟩
          · exact absurd hr (by omega)
      · -- close the run [rsf, i)
        have hcnt : ((i - 1) + 1 - rsf).toNat = (i - rsf).toNat := by
          congr 1
          omega
        obtain ⟨acc2, hres2, _, _, hresv2, hin2, hout2⟩ :=
          reserveLoop_ok_of_free (i - rsf).toNat rsf acc (by
            intro s hs1 hs2
            have hs3 : s < i := by omega
            have hq := h3 s hs1 hs3
            refine ⟨⟨by omega, by omega⟩, hq.2⟩)
        have hresv2' : ∀ s, acc2.reserved_state s = true ↔
            (acc.reserved_state s = true ∨ (rsf ≤ s ∧ s < i)) := by
          intro s
          rw [hresv2 s]
          constructor
          · rintro (h | h)
            · exact Or.inl h
            · exact Or.inr ⟨h.1, by omega⟩
          · rintro (h | h)
            · exact Or.inl h
            · exact Or.inr ⟨h.1, by omega⟩
        have hreserve : acc.reserve rsf (i - 1) = .ok acc2 := by
          unfold NFA.reserve rangeClosed
          rw [hcnt]
          exact hres2
        obtain ⟨acc', rsf', hscan, hres, hent, hrun', hpres⟩ :=
          ih (i + 1) acc2 (-1) (by omega) (by omega)
            (fun s hs1 hs2 hb => by
              rw [show acc2.reserved_state s = acc.reserved_state s from by
                cases hv : acc.reserved_state s with
                | true => exact (hresv2' s).mpr (Or.inl hv)
                | false =>
                  cases hv2 : acc2.reserved_state s with
                  | false => rfl
                  | true =>
                    rcases (hresv2' s).mp hv2 with hq | hq
                    · rw [hv] at hq
                      cases hq
                    · exact absurd hq (by omega)]
              exact hfree s (by omega) hs2 hb)
            (Or.inl rfl)
        -- the run states are reserved in acc2, hence stay reserved and keep
        -- their empty tables
        have hrunres : ∀ t, rsf ≤ t → t < i → acc'.reserved_state t = true := by
          intro t ht1 ht2
          rw [hres t]
          exact Or.inl ((hresv2' t).mpr (Or.inr ⟨ht1, ht2⟩))
        have hnopend : ∀ t, rsf ≤ t → t < i → ¬ (1 ≤ rsf' ∧ rsf' ≤ t) := by
          intro t ht1 ht2 hp
          rcases hrun' with rfl | ⟨hq1, hq2, hq3⟩
          · omega
          · have := (hq3 t hp.2 (by omega)).2
            rw [hrunres t ht1 ht2] at this
            cases this
        refine ⟨acc', rsf', ?_, ?_, ?_, hrun', ?_⟩
        · rw [hstep, if_pos (by omega : rsf > 0), hreserve]
          exact hscan
        · intro s
          rw [hres s]
          constructor
          · rintro (h | ⟨hb, hr | hr, hp⟩)
            · rcases (hresv2' s).mp h with h | h
              · exact Or.inl h
              · refine Or.inr ⟨(h3 s h.1 h.2).1, Or.inr ⟨h1, h.1, h.2⟩,
                  hnopend s h.1 h.2⟩
            · exact Or.inr ⟨hb, Or.inl ⟨by omega, hr.2⟩, hp⟩
            · exact absurd hr (by omega)
          · rintro (h | ⟨hb, hr | hr, hp⟩)
            · exact Or.inl ((hresv2' s).mpr (Or.inl h))
            · by_cases hs : s = i
              · subst hs
                rw [hb] at hbi
                cases hbi
              · exact Or.inr ⟨hb, Or.inl ⟨by omega, hr.2⟩, hp⟩
            · exact Or.inl ((hresv2' s).mpr (Or.inr ⟨hr.2.1, hr.2.2⟩))
        · intro s hb hr hp
          rcases hr with hr | hr
          · by_cases hs : s = i
            · subst hs
              rw [hb] at hbi
              cases hbi
            · exact hent s hb (Or.inl ⟨by omega, hr.2⟩) hp
          · -- a state of the closed run: reserved by `reserve`, tables empty
            have hacc2res : acc2.reserved_state s = true :=
              (hresv2' s).mpr (Or.inr ⟨hr.2.1, hr.2.2⟩)
            have hemp := hin2 s hr.2.1 (by omega)
            have hq := hpres s hacc2res
            rw [hq.1, hq.2, hemp.1, hemp.2]
            exact ⟨rfl, rfl⟩
        · intro s hs
          have hsi : ¬ (rsf ≤ s ∧ s < i) := by
            intro hq
            have := (h3 s hq.1 hq.2).2
            rw [hs] at this
            cases this
          have hacc2res : acc2.reserved_state s = true :=
            (hresv2' s).mpr (Or.inl hs)
          have hq := hpres s hacc2res
          have hq2 := hout2 s (by omega)
          rw [hq.1, hq.2, hq2.1, hq2.2]
          exact ⟨rfl, rfl⟩

theorem merge_spec (A B : NFA) (x y : Int)
    (hB0 : B.reserved_state 0 = false)
    (hBbnd : ∀ s, B.reserved_state s = true → 0 ≤ s ∧ s < (NODE_LIMIT : Int))
    (hdisj : ∀ s, B.reserved_state s = true → A.reserved_state s = false) :
    ∃ m, NFA.merge A B x y = some (.ok m) ∧
      (∀ s, m.reserved_state s = true ↔
        (A.reserved_state s = true ∨ B.reserved_state s = true)) ∧
      (∀ s, B.reserved_state s = true →
        m.move_table s = some emptyRow ∧ m.epsilon_chain s = some (∅, ∅)) := by
  obtain ⟨acc', rsf', hscan, hres, hent, hrun', hpres⟩ :=
    mergeScan_spec B hB0 NODE_LIMIT 0 A (-1) (by simp) (le_refl _)
      (fun s _ hs2 hb => hdisj s hb) (Or.inl rfl)
  have hscan' : mergeScan B A (-1) (rangeClosed 0 ((NODE_LIMIT : Int) - 1)) =
      some (.ok (acc', rsf')) := by
    have hrange : rangeClosed 0 ((NODE_LIMIT : Int) - 1) =
        rangeClosedAux 0 NODE_LIMIT := by
      unfold rangeClosed
      congr 1
    rw [hrange]
    exact hscan
  rcases hrun' with rfl | ⟨h1, h2, h3⟩
  · -- no pending run at the end of the scan
    refine ⟨acc', ?_, ?_, ?_⟩
    · rw [NFA.merge]
      simp only [hscan']
      rw [if_neg (by omega : ¬ (-1 : Int) > 0)]
    · intro s
      rw [hres s]
      constructor
      · rintro (h | ⟨hb, -, -⟩)
        · exact Or.inl h
        · exact Or.inr hb
      · rintro (h | h)
        · exact Or.inl h
        · have hbnd := hBbnd s h
          exact Or.inr ⟨h, Or.inl ⟨by omega, hbnd.2⟩, by omega⟩
    · intro s hb
      have hbnd := hBbnd s hb
      exact hent s hb (Or.inl ⟨by omega, hbnd.2⟩) (by omega)
  · -- a run extends to the last state: merge reserves it after the scan
    have hcnt : (((NODE_LIMIT : Int) - 1) + 1 - rsf').toNat =
        ((NODE_LIMIT : Int) - rsf').toNat := by
      omega
    obtain ⟨m, hresm, _, _, hresvm, hinm, houtm⟩ :=
      reserveLoop_ok_of_free ((NODE_LIMIT : Int) - rsf').toNat rsf' acc' (by
        intro s hs1 hs2
        have hs3 : s < (NODE_LIMIT : Int) := by omega
        have hq := h3 s hs1 hs3
        exact ⟨⟨by omega, hs3⟩, hq.2⟩)
    have hreserve : acc'.reserve rsf' ((NODE_LIMIT : Int) - 1) = .ok m := by
      unfold NFA.reserve rangeClosed
      rw [hcnt]
      exact hresm
    have hresvm' : ∀ s, m.reserved_state s = true ↔
        (acc'.reserved_state s = true ∨ (rsf' ≤ s ∧ s < (NODE_LIMIT : Int))) := by
      intro s
      rw [hresvm s]
      constructor
      · rintro (h | h)
        · exact Or.inl h
        · exact Or.inr ⟨h.1, by omega⟩
      · rintro (h | h)
        · exact Or.inl h
        · exact Or.inr ⟨h.1, by omega⟩
    refine ⟨m, ?_, ?_, ?_⟩
    · rw [NFA.merge]
      simp only [hscan']
      rw [if_pos (by omega : rsf' > 0)]
      simp only [hreserve]
    · intro s
      rw [hresvm' s, hres s]
      constructor
      · rintro ((h | ⟨hb, -, -⟩) | h)
        · exact Or.inl h
        · exact Or.inr hb
        · exact Or.inr (h3 s h.1 h.2).1
      · rintro (h | h)
        · exact Or.inl (Or.inl h)
        · have hbnd := hBbnd s h
          by_cases hp : rsf' ≤ s
          · exact Or.inr ⟨hp, hbnd.2⟩
          · exact Or.inl (Or.inr ⟨h, Or.inl ⟨by omega, hbnd.2⟩, by omega⟩)
    · intro s hb
      have hbnd := hBbnd s hb
      by_cases hp : rsf' ≤ s
      · exact hinm s hp (by omega)
      · have hq := hent s hb (Or.inl ⟨by omega, hbnd.2⟩) (by omega)
        have hsres : acc'.reserved_state s = true := by
          rw [hres s]
          exact Or.inr ⟨hb, Or.inl ⟨by omega, hbnd.2⟩, by omega⟩
        have hq2 := houtm s (by omega)
        rw [hq2.1, hq2.2, hq.1, hq.2]
        exact ⟨rfl, rfl⟩

/-! ### Helper lemmas for the claim theorems -/

theorem wNFA_WFb : wNFA.WFb := by
  intro s hs hck
  have h01 : s = 0 ∨ s = 1 := by
    have hres := (check_state_eq_true.mp hck).2
    simpa [wNFA] using hres
  rcases h01 with rfl | rfl <;> exact ⟨by decide, by decide⟩

theorem mergeScan_zero (B : NFA) :
    ∀ (l : List Int) (acc : NFA), mergeScan B acc 0 l = some (.ok (acc, 0)) := by
  intro l
  induction l with
  | nil => intro acc; rfl
  | cons s rest ih =>
    intro acc
    rw [mergeScan.eq_def]
    cases hbs : B.check_state s with
    | true =>
      simp only [hbs]
      rw [if_neg (by omega : ¬ (0 : Int) < 0)]
      exact ih acc
    | false =>
      simp only [hbs]
      rw [if_neg (by omega : ¬ (0 : Int) > 0)]
      exact ih acc

theorem setChain_ok_mem {fuel : Nat} {nfa n' : NFA} {a b : Int} {c : Char}
    (h : setChainFuel fuel nfa a b c = some (n', Except.ok ())) :
    b ∈ mtDests n' a c := by
  have hck := setChain_ok_checked h
  by_cases hc : c = '@'
  · subst hc
    obtain ⟨-, -, row, pa, pb, ch3, hrow, hpa, hpb, hw, hn'⟩ := setChain_eps_ok_inv h
    have hmt : n'.move_table a =
        some (updFun (rowOne row '@') '@' (some (insert b ((row '@').getD ∅)))) := by
      rw [hn']
      exact updFun_same _ _ _
    unfold mtDests
    rw [hmt]
    simp only [Option.getD_some, updFun_same]
    exact Finset.mem_insert_self _ _
  · obtain ⟨row, hrow⟩ := Option.isSome_iff_exists.mp (setChain_mt_isSome h)
    rw [setChain_sym_eq fuel hck hc hrow] at h
    have hn' : n' = { nfa with
        move_table := updFun nfa.move_table a
          (some (updFun (rowOne row c) c (some (insert b ((row c).getD ∅))))) } := by
      injection h with h1
      injection h1 with h2 h3
      exact h2.symm
    have hmt : n'.move_table a =
        some (updFun (rowOne row c) c (some (insert b ((row c).getD ∅)))) := by
      rw [hn']
      exact updFun_same _ _ _
    unfold mtDests
    rw [hmt]
    simp only [Option.getD_some, updFun_same]
    exact Finset.mem_insert_self _ _

theorem walk_fwd_mono {fs : Finset Int} {fuel : Nat}
    {ch ch' : Int → Option (Finset Int × Finset Int)} {stack : List Int}
    (hw : walkLoop fs fuel ch stack = some ch') {x : Int} {f bk : Finset Int}
    (hx : ch x = some (f, bk)) :
    ∃ f2, ch' x = some (f2, bk) ∧ f ⊆ f2 := by
  obtain ⟨h1, h2⟩ := walkLoop_spec fs fuel ch stack ch' hw
  by_cases hv : Visited ch stack x
  · exact ⟨f ∪ fs, (h2 x f bk hx).1 hv, Finset.subset_union_left⟩
  · exact ⟨f, (h2 x f bk hx).2 hv, Finset.Subset.refl f⟩

/-! ### The claim theorems -/

/-- C1, counterexample.  The spec extends the stepped set with the epsilon
closure of the stepped set itself; the code (nfa.rs line 172) unions in the
epsilon closure of the *previous* active set instead.  On the automaton
`0 —a→ 1 —ε→ 2` with input `"a"`, the code answers `false` although the
finish state 2 is in the spec's final active set. -/
theorem c1_counterexample :
    c1nfa.simulate ['a'] = some false ∧ c1nfa.finish ∈ specActiveSet c1nfa ['a'] :=
  ⟨by decide, by decide⟩

/-- C1, amended.  For a well-formed automaton with a reserved start state,
`simulate` answers whether `finish` lies in the final active set computed by
folding `codeStep` — per symbol, the image of the active set through the move
table, unioned with the epsilon closure of the *previous* active set — from
the initial set `{start} ∪ epsilon_forward[start]`.  For empty input this is
membership in the initial set. -/
theorem c1_simulate_fold {nfa : NFA} (hwf : nfa.WFb) (target : List Char)
    (hstart : nfa.check_state nfa.start = true) :
    nfa.simulate target =
      some (decide (nfa.finish ∈
        List.foldl (codeStep nfa) (insert nfa.start (fwdSet nfa nfa.start)) target)) :=
  simulate_eq_fold hwf hstart target

/-- C1, witness: the amended theorem applied to a concrete automaton. -/
theorem c1_witness :
    wNFA.WFb ∧ wNFA.check_state wNFA.start = true ∧
    wNFA.simulate ['a', 'b'] =
      some (decide (wNFA.finish ∈
        List.foldl (codeStep wNFA) (insert wNFA.start (fwdSet wNFA wNFA.start))
          ['a', 'b'])) :=
  ⟨wNFA_WFb, by decide, c1_simulate_fold wNFA_WFb ['a', 'b'] (by decide)⟩

/-- C2: after every successful epsilon insertion on an automaton built through
the public interface, `q ∈ epsilon_forward[p]` iff a non-empty path of
inserted epsilon edges leads from `p` to `q` (`Relation.TransGen` is exactly
non-empty reachability, so a state is not automatically in its own forward
set). -/
theorem c2_closure_correct {n : NFA} {es : List (Int × Int)} {a b : Int} {fuel : Nat}
    {n' : NFA} (hb : Built n es)
    (h : setChainFuel fuel n a b '@' = some (n', Except.ok ())) (p q : Int) :
    q ∈ fwdSet n' p ↔ Relation.TransGen (EdgeRel (es ++ [(a, b)])) p q :=
  (built_ChainInv (Built.chainEps n es a b fuel n' hb h)).2.2.2.2.2 p q

/-- C2, witness: the closure-correctness theorem applied to inserting the
edge `(1, 2)` into a fresh automaton on states `1..3`. -/
theorem c2_witness :
    Built c2n0 [] ∧ setChainFuel 9 c2n0 1 2 '@' = some (c2n1, Except.ok ()) ∧
    ((2 : Int) ∈ fwdSet c2n1 1 ↔
      Relation.TransGen (EdgeRel ([] ++ [((1 : Int), (2 : Int))])) 1 2) :=
  ⟨Built.new 1 3 c2n0 rfl, rfl,
    c2_closure_correct (Built.new 1 3 c2n0 rfl)
      (rfl : setChainFuel 9 c2n0 1 2 '@' = some (c2n1, Except.ok ())) 1 2⟩

/-- C4: the epsilon-forward tables after inserting a fixed edge set depend
only on the set, not on the insertion order — any two `Built` automata whose
edge lists are permutations of one another store identical forward sets. -/
theorem c4_order_independent {n1 n2 : NFA} {es1 es2 : List (Int × Int)}
    (h1 : Built n1 es1) (h2 : Built n2 es2) (hp : es1.Perm es2) (p : Int) :
    fwdSet n1 p = fwdSet n2 p := by
  ext q
  rw [(built_ChainInv h1).2.2.2.2.2 p q, (built_ChainInv h2).2.2.2.2.2 p q]
  constructor
  · exact Relation.TransGen.mono (fun x y hxy => hp.mem_iff.mp hxy)
  · exact Relation.TransGen.mono (fun x y hxy => hp.mem_iff.mpr hxy)

/-- C4, witness: inserting `(1,2)` then `(3,4)` and inserting `(3,4)` then
`(1,2)` into a fresh automaton on states `1..4` yield the same forward set. -/
theorem c4_witness :
    Built c4a2 [((1 : Int), (2 : Int)), (3, 4)] ∧
    Built c4b2 [((3 : Int), (4 : Int)), (1, 2)] ∧
    List.Perm [((1 : Int), (2 : Int)), (3, 4)] [((3 : Int), (4 : Int)), (1, 2)] ∧
    fwdSet c4a2 1 = fwdSet c4b2 1 := by
  refine ⟨?_, ?_, by decide, ?_⟩
  · exact Built.chainEps c4a1 [(1, 2)] 3 4 9 c4a2
      (Built.chainEps c4n0 [] 1 2 9 c4a1 (Built.new 1 4 c4n0 rfl) rfl) rfl
  · exact Built.chainEps c4b1 [(3, 4)] 1 2 9 c4b2
      (Built.chainEps c4n0 [] 3 4 9 c4b1 (Built.new 1 4 c4n0 rfl) rfl) rfl
  · exact c4_order_independent
      (Built.chainEps c4a1 [(1, 2)] 3 4 9 c4a2
        (Built.chainEps c4n0 [] 1 2 9 c4a1 (Built.new 1 4 c4n0 rfl) rfl) rfl)
      (Built.chainEps c4b1 [(3, 4)] 1 2 9 c4b2
        (Built.chainEps c4n0 [] 3 4 9 c4b1 (Built.new 1 4 c4n0 rfl) rfl) rfl)
      (by decide) 1

/-- C5, counterexample.  The spec says unreserved states — including the
start state — contribute nothing rather than erroring, and that all errors
surface as result values.  But `NFA::new(5, 3)` succeeds (empty reserve
range) with its start state 5 unreserved, and `simulate` then panics
(line 159 indexes `epsilon_chain[&start]` with no guard): the model
surfaces the panic as `none`. -/
theorem c5_counterexample :
    (NFA.new 5 3).isSome = true ∧ ((NFA.new 5 3).getD dNFA).simulate [] = none :=
  ⟨by decide, by decide⟩

/-- C5, amended.  For a well-formed automaton whose start state is reserved
no panic occurs: `get_closure` of an unchecked state is `some ∅`
(contributing nothing), `get_epsilon_closure` skips unreserved members and
returns the union of the forward sets of the reserved ones, and `simulate`
returns a value on every input. -/
theorem c5_no_panic_when_start_reserved {nfa : NFA} (hwf : nfa.WFb) (target : List Char)
    (hstart : nfa.check_state nfa.start = true) :
    (∀ s c, nfa.check_state s = false → nfa.get_closure s c = some ∅) ∧
    (∀ S : Finset Int, nfa.get_epsilon_closure S = some (epsClosureSet nfa S)) ∧
    (nfa.simulate target).isSome = true := by
  refine ⟨?_, ?_, ?_⟩
  · intro s c hs
    simp [NFA.get_closure, hs]
  · intro S
    unfold NFA.get_epsilon_closure
    rw [if_pos (fun s _ hs => (WFb_forall hwf s hs).2)]
    rfl
  · rw [simulate_eq_fold hwf hstart target]
    rfl

/-- C5, witness: the no-panic theorem applied to a concrete automaton. -/
theorem c5_witness :
    wNFA.WFb ∧ wNFA.check_state wNFA.start = true ∧
    ((∀ s c, wNFA.check_state s = false → wNFA.get_closure s c = some ∅) ∧
     (∀ S : Finset Int, wNFA.get_epsilon_closure S = some (epsClosureSet wNFA S)) ∧
     (wNFA.simulate ['a']).isSome = true) :=
  ⟨wNFA_WFb, by decide, c5_no_panic_when_start_reserved wNFA_WFb ['a'] (by decide)⟩

/-- C8: `set_chain` fails with `NonReservedState` exactly when `a` or `b` is
not a reserved state, and the failure mutates nothing (the returned automaton
is the input); on success `b` is in the destination set stored under
`(a, symbol)`, and repeating the same insertion returns the same automaton
(idempotence). -/
theorem c8_transition_spec (fuel : Nat) (nfa : NFA) (a b : Int) (c : Char) :
    (¬ (nfa.check_state a = true ∧ nfa.check_state b = true) →
       setChainFuel fuel nfa a b c = some (nfa, Except.error NFAError.NonReservedState)) ∧
    (∀ n' e, setChainFuel fuel nfa a b c = some (n', Except.error e) →
       n' = nfa ∧ e = NFAError.NonReservedState ∧
       ¬ (nfa.check_state a = true ∧ nfa.check_state b = true)) ∧
    (∀ n', setChainFuel fuel nfa a b c = some (n', Except.ok ()) →
       (nfa.check_state a = true ∧ nfa.check_state b = true) ∧
       b ∈ mtDests n' a c ∧
       setChainFuel fuel n' a b c = some (n', Except.ok ())) :=
  ⟨fun h => setChain_not_checked fuel h, fun _ _ h => setChain_error_inv h,
    fun _ h => ⟨setChain_ok_checked h, setChain_ok_mem h, setChain_idem h⟩⟩

/-- C8, witness: the transition-insertion theorem instantiated on the
concrete insertion `set_chain(0, 1, 'a')` into a fresh automaton. -/
theorem c8_witness :
    (c1n0.check_state 0 = true ∧ c1n0.check_state 1 = true) ∧
    (1 : Int) ∈ mtDests c1n1 0 'a' ∧
    setChainFuel 9 c1n1 0 1 'a' = some (c1n1, Except.ok ()) :=
  (c8_transition_spec 9 c1n0 0 1 'a').2.2 c1n1 rfl

/-- C10: the epsilon marker is the ordinary character `'@'`, and a successful
`set_chain(a, b, '@')` records `b` both in the move table under `(a, '@')`
and in the stored epsilon-forward set of `a`, so `b` is reached both by
epsilon moves and by consuming a literal `'@'` input symbol. -/
theorem c10_epsilon_also_literal {fuel : Nat} {nfa n' : NFA} {a b : Int}
    (h : setChainFuel fuel nfa a b '@' = some (n', Except.ok ())) :
    b ∈ mtDests n' a '@' ∧ b ∈ fwdSet n' a ∧ b ∈ stepSet n' a '@' := by
  obtain ⟨hcka, hckb, row, pa, pb, ch3, hrow, hpa, hpb, hw, hn'⟩ := setChain_eps_ok_inv h
  have hrs : n'.reserved_state = nfa.reserved_state := by rw [hn']
  have hmt : n'.move_table a =
      some (updFun (rowOne row '@') '@' (some (insert b ((row '@').getD ∅)))) := by
    rw [hn']
    exact updFun_same _ _ _
  have hck' : n'.check_state a = true := by
    rw [check_state_congr hrs a]
    exact hcka
  have hmem : b ∈ ((updFun (rowOne row '@') '@'
      (some (insert b ((row '@').getD ∅)))) '@').getD ∅ := by
    rw [updFun_same]
    exact Finset.mem_insert_self _ _
  refine ⟨?_, ?_, ?_⟩
  · unfold mtDests
    rw [hmt]
    simp only [Option.getD_some]
    exact hmem
  · have hab : a ≠ b := by
      intro hq
      subst hq
      have hcada : chainAfterDirect nfa a a a = some (pb.1, insert a pb.2) := by
        rw [chainAfterDirect_eq hpa hpb]
        exact updFun_same _ _ _
      have hnone := walkLoop_none_of_selfloop (epsFStates nfa a a) fuel
        (chainAfterDirect nfa a a) [a] (List.mem_singleton.mpr rfl)
        (by
          intro p hp
          rw [hcada] at hp
          cases hp
          exact Finset.mem_insert_self _ _)
      rw [hnone] at hw
      cases hw
    have hcada : chainAfterDirect nfa a b a = some (insert b pa.1, pa.2) := by
      rw [chainAfterDirect_eq hpa hpb, updFun_ne _ _ hab, updFun_same]
    obtain ⟨f2, hf2, hsub⟩ := walk_fwd_mono hw hcada
    have hch : n'.epsilon_chain a = some (f2, pa.2) := by
      rw [hn']
      exact hf2
    rw [fwdSet, hch]
    exact hsub (Finset.mem_insert_self _ _)
  · unfold stepSet
    rw [if_pos hck']
    simp only [hmt]
    exact hmem

/-- C10, witness: the theorem applied to the concrete epsilon insertion
`set_chain(1, 2, '@')`. -/
theorem c10_witness :
    setChainFuel 9 c1n1 1 2 '@' = some (c1nfa, Except.ok ()) ∧
    ((2 : Int) ∈ mtDests c1nfa 1 '@' ∧ (2 : Int) ∈ fwdSet c1nfa 1 ∧
      (2 : Int) ∈ stepSet c1nfa 1 '@') :=
  ⟨rfl, c10_epsilon_also_literal
    (rfl : setChainFuel 9 c1n1 1 2 '@' = some (c1nfa, Except.ok ()))⟩

/-- C3, counterexample.  The spec says every single epsilon insertion
terminates, including ones that create an epsilon cycle.  But the backward
propagation `loop` of `set_chain` (nfa.rs lines 130–142) keeps no visited
set: after inserting `1 —ε→ 2`, inserting the cycle-closing edge `2 —ε→ 1`
between these two reserved states bounces between the two back-edges forever
(`none` at every fuel). -/
theorem c3_counterexample :
    cyc1.check_state 2 = true ∧ cyc1.check_state 1 = true ∧
    InsertionDiverges cyc1 2 1 := by
  refine ⟨by decide, by decide, ?_⟩
  intro fuel
  cases hr : setChainFuel fuel cyc1 2 1 '@' with
  | none => rfl
  | some r =>
    exfalso
    obtain ⟨n2, e⟩ := r
    cases e with
    | error e0 =>
      exact (setChain_error_inv hr).2.2 ⟨by decide, by decide⟩
    | ok u =>
      cases u
      obtain ⟨-, -, row, pa, pb, ch3, -, -, -, hw, -⟩ := setChain_eps_ok_inv hr
      have hcyc := walkLoop_cyc_none (epsFStates cyc1 2 1) fuel
        (chainAfterDirect cyc1 2 1) {2} {1} (by decide) (by decide)
      rw [hcyc.2] at hw
      cases hw

/-- C3, amended.  A single epsilon insertion between reserved states of a
built automaton terminates whenever the enlarged edge set is acyclic — a
rank function increasing along every inserted edge bounds the propagation
walk, whose measure is controlled by the capacity `NODE_LIMIT`. -/
theorem c3_insertion_terminates_acyclic {nfa : NFA} {es : List (Int × Int)} {a b : Int}
    (rank : Int → Nat) (hb : Built nfa es)
    (hcka : nfa.check_state a = true) (hckb : nfa.check_state b = true)
    (hrank : ∀ e ∈ es ++ [(a, b)], rank e.1 < rank e.2) :
    ∃ fuel n', setChainFuel fuel nfa a b '@' = some (n', Except.ok ()) := by
  obtain ⟨hA, hA', hB, hD, hC, hE⟩ := built_ChainInv hb
  have hres_a : nfa.reserved_state a = true := (check_state_eq_true.mp hcka).2
  have hres_b : nfa.reserved_state b = true := (check_state_eq_true.mp hckb).2
  have hedge_ab : (a, b) ∈ es ++ [(a, b)] :=
    List.mem_append_right _ (List.mem_singleton.mpr rfl)
  have hab : a ≠ b := by
    intro hq
    have hlt := hrank (a, b) hedge_ab
    rw [hq] at hlt
    simp at hlt
  obtain ⟨row, hrow⟩ := Option.isSome_iff_exists.mp ((hA' a).mp hres_a)
  obtain ⟨pa, hpa⟩ := Option.isSome_iff_exists.mp ((hA a).mp hres_a)
  obtain ⟨pb0, hpb0⟩ := Option.isSome_iff_exists.mp ((hA b).mp hres_b)
  have hpb : updFun nfa.epsilon_chain a (some (insert b pa.1, pa.2)) b = some pb0 := by
    rw [updFun_ne _ _ (Ne.symm hab)]
    exact hpb0
  have hch2eq := chainAfterDirect_eq hpa hpb
  have hch2a : chainAfterDirect nfa a b a = some (insert b pa.1, pa.2) := by
    rw [hch2eq, updFun_ne _ _ hab, updFun_same]
  have hch2b : chainAfterDirect nfa a b b = some (pb0.1, insert a pb0.2) := by
    rw [hch2eq]
    exact updFun_same _ _ _
  have hch2other : ∀ x, x ≠ a → x ≠ b →
      chainAfterDirect nfa a b x = nfa.epsilon_chain x := by
    intro x hxa hxb
    rw [hch2eq, updFun_ne _ _ hxb, updFun_ne _ _ hxa]
  have hba : bwdSet nfa a = pa.2 := by simp [bwdSet, hpa]
  have hbb : bwdSet nfa b = pb0.2 := by simp [bwdSet, hpb0]
  have hRbk : ∀ x y, Rbk (chainAfterDirect nfa a b) x y → (y, x) ∈ es ++ [(a, b)] := by
    rintro x y ⟨p, hp, hy⟩
    by_cases hxa : x = a
    · subst hxa
      rw [hch2a] at hp
      cases hp
      exact List.mem_append_left _ ((hC y x).mp (by rw [hba]; exact hy))
    · by_cases hxb : x = b
      · subst hxb
        rw [hch2b] at hp
        cases hp
        rcases Finset.mem_insert.mp hy with rfl | hy2
        · exact hedge_ab
        · exact List.mem_append_left _ ((hC y x).mp (by rw [hbb]; exact hy2))
      · rw [hch2other x hxa hxb] at hp
        refine List.mem_append_left _ ((hC y x).mp ?_)
        rw [bwdSet, hp]
        exact hy
  have hEdgeRes : ∀ y x, (y, x) ∈ es ++ [(a, b)] → nfa.reserved_state y = true := by
    intro y x hm
    rcases List.mem_append.mp hm with hm | hm
    · exact (hD (y, x) hm).1
    · have hm2 := List.mem_singleton.mp hm
      injection hm2 with hm3 hm4
      subst hm3
      exact hres_a
  have hDomCad : ∀ y, nfa.reserved_state y = true →
      (chainAfterDirect nfa a b y).isSome = true := by
    intro y hyres
    by_cases hya : y = a
    · subst hya
      rw [hch2a]
      rfl
    · by_cases hyb : y = b
      · subst hyb
        rw [hch2b]
        rfl
      · rw [hch2other y hya hyb]
        exact (hA y).mp hyres
  have hcard : ∀ x p, chainAfterDirect nfa a b x = some p → p.2.card ≤ NODE_LIMIT := by
    intro x p hp
    have hsub : p.2 ⊆ Finset.Icc (0 : Int) ((NODE_LIMIT : Int) - 1) := by
      intro m hm
      have hres := hEdgeRes m x (hRbk x m ⟨p, hp, hm⟩)
      have hbnd := hB m hres
      exact Finset.mem_Icc.mpr ⟨hbnd.1, by omega⟩
    calc p.2.card ≤ (Finset.Icc (0 : Int) ((NODE_LIMIT : Int) - 1)).card :=
          Finset.card_le_card hsub
      _ = NODE_LIMIT := by
          rw [Int.card_Icc]
          decide
  have hwalk : (walkLoop (epsFStates nfa a b) ((NODE_LIMIT + 1) ^ rank a + 1)
      (chainAfterDirect nfa a b) [a]).isSome = true := by
    apply walkLoop_isSome_of_rank (epsFStates nfa a b) rank
      ((NODE_LIMIT + 1) ^ rank a + 1) (chainAfterDirect nfa a b) [a]
    · intro x y hxy
      exact hrank (y, x) (hRbk x y hxy)
    · intro x y hxy
      exact hDomCad y (hEdgeRes y x (hRbk x y hxy))
    · exact hcard
    · intro t ht
      have ht2 := List.mem_singleton.mp ht
      subst ht2
      exact hDomCad t hres_a
    · simp only [List.map_cons, List.map_nil, List.sum_cons, List.sum_nil, Nat.add_zero]
      omega
  obtain ⟨ch3, hch3⟩ := Option.isSome_iff_exists.mp hwalk
  refine ⟨(NODE_LIMIT + 1) ^ rank a + 1, ?_⟩
  rw [setChain_eps_eq ((NODE_LIMIT + 1) ^ rank a + 1) ⟨hcka, hckb⟩ hrow hpa hpb, hch3]
  exact ⟨_, rfl⟩

/-- C3, witness: the termination theorem applied to an acyclic insertion
into a concrete automaton, ranked by the state number itself. -/
theorem c3_witness :
    Built c2n0 [] ∧ c2n0.check_state 1 = true ∧ c2n0.check_state 2 = true ∧
    (∀ e ∈ ([] ++ [((1 : Int), (2 : Int))]),
      (fun s : Int => s.toNat) e.1 < (fun s : Int => s.toNat) e.2) ∧
    (∃ fuel n', setChainFuel fuel c2n0 1 2 '@' = some (n', Except.ok ())) :=
  ⟨Built.new 1 3 c2n0 rfl, by decide, by decide, by decide,
    c3_insertion_terminates_acyclic (fun s : Int => s.toNat) (Built.new 1 3 c2n0 rfl)
      (by decide) (by decide) (by decide)⟩

/-- C6, counterexample.  `new(from, to)` does not fail on an invalid range:
`NFA::new(5, 3)` (from > to) succeeds with an empty reservation.  And the
reservation table lives inside each automaton, not in a shared process-wide
space: `NFA::new(0, 4)` and `NFA::new(2, 10)` both succeed and both reserve
state 2, so two live automata do hold the same state identifier. -/
theorem c6_counterexample :
    (NFA.new 5 3).isSome = true ∧
    (NFA.new 0 4).isSome = true ∧ (NFA.new 2 10).isSome = true ∧
    ((NFA.new 0 4).getD dNFA).reserved_state 2 = true ∧
    ((NFA.new 2 10).getD dNFA).reserved_state 2 = true :=
  ⟨by decide, by decide, by decide, by decide, by decide⟩

/-- C6, amended.  For an in-range non-empty range `0 ≤ from ≤ to < NODE_LIMIT`,
`new(from, to)` succeeds and returns an automaton with the given start and
finish whose reserved states are exactly the range — reservation is
per-automaton, so this is the whole construction-time guarantee. -/
theorem c6_create_spec (f t : Int) (hf : 0 ≤ f) (hft : f ≤ t)
    (ht : t < (NODE_LIMIT : Int)) :
    ∃ n, NFA.new f t = some n ∧ n.start = f ∧ n.finish = t ∧
      (∀ s, n.reserved_state s = true ↔ (f ≤ s ∧ s ≤ t)) ∧
      (∀ s, f ≤ s → s ≤ t →
        n.move_table s = some emptyRow ∧ n.epsilon_chain s = some (∅, ∅)) := by
  obtain ⟨n', hres, hst, hfin, hresv, hin, hout⟩ :=
    reserveLoop_ok_of_free (t + 1 - f).toNat f
      ⟨f, t, fun _ => false, fun _ => none, fun _ => none⟩
      (by
        intro s h1 h2
        exact ⟨⟨by omega, by omega⟩, rfl⟩)
  have hr : NFA.reserve ⟨f, t, fun _ => false, fun _ => none, fun _ => none⟩ f t =
      .ok n' := hres
  refine ⟨n', ?_, hst, hfin, ?_, ?_⟩
  · unfold NFA.new
    rw [hr]
  · intro s
    rw [hresv s]
    constructor
    · rintro (h | h)
      · cases h
      · exact ⟨h.1, by omega⟩
    · intro h
      exact Or.inr ⟨h.1, by omega⟩
  · intro s hs1 hs2
    exact hin s hs1 (by omega)

/-- C6, witness: the creation theorem applied to the range `0..2`. -/
theorem c6_witness :
    (0 : Int) ≤ 0 ∧ (0 : Int) ≤ 2 ∧ (2 : Int) < (NODE_LIMIT : Int) ∧
    (∃ n, NFA.new 0 2 = some n ∧ n.start = 0 ∧ n.finish = 2 ∧
      (∀ s, n.reserved_state s = true ↔ ((0 : Int) ≤ s ∧ s ≤ 2)) ∧
      (∀ s, (0 : Int) ≤ s → s ≤ 2 →
        n.move_table s = some emptyRow ∧ n.epsilon_chain s = some (∅, ∅))) :=
  ⟨by decide, by decide, by decide, c6_create_spec 0 2 (by decide) (by decide) (by decide)⟩

/-- C7: for an in-range non-empty range, `reserve` succeeds on a range
disjoint from the current reservations; it fails exactly when some state of
the range is already reserved, the error is `AlreadyReservedState`, and the
states of the range before the first conflict stay reserved (no rollback);
on success every state of the range is reserved with empty transition and
epsilon entries and states outside the range keep their entries. -/
theorem c7_reserve_spec (nfa : NFA) (f t : Int) (hf : 0 ≤ f) (hft : f ≤ t)
    (ht : t < (NODE_LIMIT : Int)) :
    ((∀ s, f ≤ s → s ≤ t → nfa.reserved_state s = false) →
       ∃ n', nfa.reserve f t = .ok n') ∧
    ((∃ s, f ≤ s ∧ s ≤ t ∧ nfa.reserved_state s = true) →
       ∃ n', nfa.reserve f t = .err n' .AlreadyReservedState) ∧
    (∀ n' e, nfa.reserve f t = .err n' e →
       e = .AlreadyReservedState ∧
       ∃ s0, f ≤ s0 ∧ s0 ≤ t ∧ nfa.reserved_state s0 = true ∧
         (∀ s, f ≤ s → s < s0 → nfa.reserved_state s = false) ∧
         (∀ s, n'.reserved_state s = true ↔
            (nfa.reserved_state s = true ∨ (f ≤ s ∧ s < s0)))) ∧
    (∀ n', nfa.reserve f t = .ok n' →
       (∀ s, n'.reserved_state s = true ↔
          (nfa.reserved_state s = true ∨ (f ≤ s ∧ s ≤ t))) ∧
       (∀ s, f ≤ s → s ≤ t →
          n'.move_table s = some emptyRow ∧ n'.epsilon_chain s = some (∅, ∅)) ∧
       (∀ s, ¬ (f ≤ s ∧ s ≤ t) →
          n'.move_table s = nfa.move_table s ∧
          n'.epsilon_chain s = nfa.epsilon_chain s)) := by
  refine ⟨?_, ?_, ?_, ?_⟩
  · intro hfree
    obtain ⟨n', hres, -⟩ :=
      reserveLoop_ok_of_free (t + 1 - f).toNat f nfa
        (fun s h1 h2 => ⟨⟨by omega, by omega⟩, hfree s h1 (by omega)⟩)
    exact ⟨n', hres⟩
  · rintro ⟨s, hs1, hs2, hs3⟩
    obtain ⟨n', hn'⟩ := reserveLoop_err_of_conflict (t + 1 - f).toNat f nfa
      (fun u hu1 hu2 => ⟨by omega, by omega⟩) ⟨s, hs1, by omega, hs3⟩
    exact ⟨n', hn'⟩
  · intro n' e h
    obtain ⟨he, s0, h1, h2, h3, h4, h5⟩ :=
      reserveLoop_err_inv (t + 1 - f).toNat f nfa n' e h
    exact ⟨he, s0, h1, by omega, h3, fun s hs1 hs2 => (h4 s hs1 hs2).2, h5⟩
  · intro n' h
    obtain ⟨hfree, hst, hfin, hresv, hin, hout⟩ :=
      reserveLoop_ok_inv (t + 1 - f).toNat f nfa n' h
    refine ⟨?_, ?_, ?_⟩
    · intro s
      rw [hresv s]
      constructor
      · rintro (hq | hq)
        · exact Or.inl hq
        · exact Or.inr ⟨hq.1, by omega⟩
      · rintro (hq | hq)
        · exact Or.inl hq
        · exact Or.inr ⟨hq.1, by omega⟩
    · intro s hs1 hs2
      exact hin s hs1 (by omega)
    · intro s hs
      exact hout s (fun hc => hs ⟨hc.1, by omega⟩)

/-- C7, witness: the reservation theorem applied to the automaton reserving
only state 5 and the disjoint range `1..3`. -/
theorem c7_witness :
    (0 : Int) ≤ 1 ∧ (1 : Int) ≤ 3 ∧ (3 : Int) < (NODE_LIMIT : Int) ∧
    (((∀ s, (1 : Int) ≤ s → s ≤ 3 → wA.reserved_state s = false) →
        ∃ n', wA.reserve 1 3 = .ok n') ∧
     ((∃ s, (1 : Int) ≤ s ∧ s ≤ 3 ∧ wA.reserved_state s = true) →
        ∃ n', wA.reserve 1 3 = .err n' .AlreadyReservedState) ∧
     (∀ n' e, wA.reserve 1 3 = .err n' e →
        e = .AlreadyReservedState ∧
        ∃ s0, (1 : Int) ≤ s0 ∧ s0 ≤ 3 ∧ wA.reserved_state s0 = true ∧
          (∀ s, (1 : Int) ≤ s → s < s0 → wA.reserved_state s = false) ∧
          (∀ s, n'.reserved_state s = true ↔
             (wA.reserved_state s = true ∨ ((1 : Int) ≤ s ∧ s < s0)))) ∧
     (∀ n', wA.reserve 1 3 = .ok n' →
        (∀ s, n'.reserved_state s = true ↔
           (wA.reserved_state s = true ∨ ((1 : Int) ≤ s ∧ s ≤ 3))) ∧
        (∀ s, (1 : Int) ≤ s → s ≤ 3 →
           n'.move_table s = some emptyRow ∧ n'.epsilon_chain s = some (∅, ∅)) ∧
        (∀ s, ¬ ((1 : Int) ≤ s ∧ s ≤ 3) →
           n'.move_table s = wA.move_table s ∧
           n'.epsilon_chain s = wA.epsilon_chain s))) :=
  ⟨by decide, by decide, by decide, c7_reserve_spec wA 1 3 (by decide) (by decide) (by decide)⟩

/-- C9, counterexample.  The claim says merging automata with disjoint
reserved sets always carries every reserved state of either input into the
result.  But the scan of `merge` only reserves a pending run when
`reserve_s_f > 0`: a run of `nfa_b`'s states that starts at state 0 leaves
the marker at 0, is never reserved, and blocks every later run.  Merging an
automaton reserving `{5, 6}` with one reserving `{0, 1, 2, 3}` returns the
first automaton unchanged — state 0 of the second is reserved in neither. -/
theorem c9_counterexample :
    DisjointReserved c9A c9B ∧ NFA.merge c9A c9B 0 0 = some (.ok c9A) ∧
    c9B.reserved_state 0 = true ∧ c9A.reserved_state 0 = false := by
  refine ⟨?_, ?_, by decide, by decide⟩
  · intro s hA
    have hs : s = 5 ∨ s = 6 := by simpa [c9A] using hA
    rcases hs with rfl | rfl <;> decide
  · unfold NFA.merge
    have h1 : mergeScan c9B c9A (-1) (rangeClosed 0 ((NODE_LIMIT : Int) - 1)) =
        some (.ok (c9A, 0)) := by
      have hlist : rangeClosed 0 ((NODE_LIMIT : Int) - 1) =
          (0 : Int) :: rangeClosedAux 1 999 := rfl
      rw [hlist, mergeScan.eq_def]
      have hc : c9B.check_state 0 = true := by decide
      simp only [hc, if_true]
      rw [if_pos (by omega : (-1 : Int) < 0)]
      exact mergeScan_zero c9B (rangeClosedAux 1 999) c9A
    rw [h1]
    rfl

/-- C9, amended.  When additionally `nfa_b` does not reserve state 0, the
merge of disjoint automata succeeds, the result reserves the union of both
reserved sets, and `nfa_b`'s states get *empty* transition and epsilon
entries — the second automaton's transitions and closures are not carried
over. -/
theorem c9_merge_partial (A B : NFA) (x y : Int)
    (hB0 : B.reserved_state 0 = false)
    (hBbnd : ∀ s, B.reserved_state s = true → 0 ≤ s ∧ s < (NODE_LIMIT : Int))
    (hdisj : ∀ s, B.reserved_state s = true → A.reserved_state s = false) :
    ∃ m, NFA.merge A B x y = some (.ok m) ∧
      (∀ s, m.reserved_state s = true ↔
        (A.reserved_state s = true ∨ B.reserved_state s = true)) ∧
      (∀ s, B.reserved_state s = true →
        m.move_table s = some emptyRow ∧ m.epsilon_chain s = some (∅, ∅)) :=
  merge_spec A B x y hB0 hBbnd hdisj

/-- C9, witness: the amended merge theorem applied to the automata reserving
`{1}` and `{5}`. -/
theorem c9_witness :
    wA.reserved_state 0 = false ∧
    (∀ s, wA.reserved_state s = true → 0 ≤ s ∧ s < (NODE_LIMIT : Int)) ∧
    (∀ s, wA.reserved_state s = true → wB.reserved_state s = false) ∧
    (∃ m, NFA.merge wB wA 0 0 = some (.ok m) ∧
      (∀ s, m.reserved_state s = true ↔
        (wB.reserved_state s = true ∨ wA.reserved_state s = true)) ∧
      (∀ s, wA.reserved_state s = true →
        m.move_table s = some emptyRow ∧ m.epsilon_chain s = some (∅, ∅))) := by
  have hbnd : ∀ s, wA.reserved_state s = true → 0 ≤ s ∧ s < (NODE_LIMIT : Int) := by
    intro s hs
    have h5 : s = 5 := by simpa [wA] using hs
    subst h5
    exact ⟨by omega, by decide⟩
  have hdisj : ∀ s, wA.reserved_state s = true → wB.reserved_state s = false := by
    intro s hs
    have h5 : s = 5 := by simpa [wA] using hs
    subst h5
    decide
  exact ⟨by decide, hbnd, hdisj, c9_merge_partial wB wA 0 0 (by decide) hbnd hdisj⟩

end RegexExec
